import Mathlib

set_option linter.unusedVariables false

/- Verification of the test-run orchestrator (runner.ts): the suite data
model, the test grouper (createTestGroups), the shard filter
(Runner._filterForCurrentShard), the suite filters (filterSuite,
filterSuiteWithOnlySemantics), the staged run loop (Runner._run /
Runner.runAllTests, with the external dispatcher and signal watcher
abstracted as per-stage inputs), and the file collector (collectFiles).
The Suite / TestCase classes themselves live in an external module, so
their shape is modelled from the specification; everything operating on
them is translated from the source. -/

/-- Modelled from the spec: parallelMode of a suite is one of default,
serial, parallel. -/
inductive PMode where
  | pmDefault
  | serial
  | parallel
deriving DecidableEq

/-- Modelled from the spec: hook types carried by a suite. -/
inductive HookType where
  | beforeAll
  | afterAll
  | beforeEach
  | afterEach
deriving DecidableEq

/-- Modelled from the spec: project run mode is default or always. -/
inductive RunMode where
  | runDefault
  | always
deriving DecidableEq

/-- Modelled from the spec: the part of a project configuration the
orchestrator consults (its run mode). -/
structure ProjectConfig where
  run : RunMode
deriving DecidableEq

/-- Modelled from the spec: the attributes of one suite node. The id
stands for object identity (suites are map keys in the grouper). The
project field is the attached project configuration of project nodes. -/
structure SuiteAttrs where
  id : Nat
  parallelMode : PMode
  hooks : List HookType
  project : Option ProjectConfig
deriving DecidableEq

/-- Modelled from the spec: a test case leaf. The id stands for object
identity. projectRun models the value of test.parent.project()!.run,
which in the source is reachable from the test through parent links. -/
structure TestCase where
  id : Nat
  workerHash : String
  requireFile : String
  repeatEachIndex : Nat
  projectId : String
  projectRun : RunMode
deriving DecidableEq

mutual
/-- Modelled from the spec: a suite node holds its attributes and the
ordered entries list; each entry is a suite or a test. -/
inductive Suite where
  | mk (attrs : SuiteAttrs) (entries : List SuiteEntry)
/-- Modelled from the spec: one entry of a suite. -/
inductive SuiteEntry where
  | testEntry (t : TestCase)
  | suiteEntry (s : Suite)
end

def Suite.attrs : Suite → SuiteAttrs
  | .mk a _ => a

def Suite.entries : Suite → List SuiteEntry
  | .mk _ es => es

/-- Modelled from the spec: the child suites, in entries order. -/
def Suite.suites (s : Suite) : List Suite :=
  s.entries.filterMap fun e =>
    match e with
    | .suiteEntry c => some c
    | .testEntry _ => none

/-- Modelled from the spec: the direct child tests, in entries order. -/
def Suite.ownTests (s : Suite) : List TestCase :=
  s.entries.filterMap fun e =>
    match e with
    | .testEntry t => some t
    | .suiteEntry _ => none

mutual
/-- Modelled from the spec: Suite.allTests, all test leaves of the tree
in entries (declaration) order. -/
def Suite.allTests : Suite → List TestCase
  | .mk _ es => entriesTests es

def entriesTests : List SuiteEntry → List TestCase
  | [] => []
  | .testEntry t :: es => t :: entriesTests es
  | .suiteEntry s :: es => Suite.allTests s ++ entriesTests es
end

/-- Keys of the grouper's parallel map: the outermost serial suite or
the test itself (object identity, modelled by ids). -/
inductive GroupKey where
  | suiteKey (id : Nat)
  | testKey (id : Nat)
deriving DecidableEq

/-- TestGroup, as produced by createTestGroups (dispatcher.ts shape). -/
structure TestGroup where
  workerHash : String
  requireFile : String
  repeatEachIndex : Nat
  projectId : String
  run : RunMode
  tests : List TestCase
  watchMode : Bool
deriving DecidableEq

/-- Insertion-ordered association list lookup (JS Map.get). -/
def alistGet {κ β : Type} [DecidableEq κ] (k : κ) : List (κ × β) → Option β
  | [] => none
  | (k', v) :: r => if k = k' then some v else alistGet k r

/-- Insertion-ordered association list update: replace the value at k in
place when present, otherwise append (k, f none) at the end.  This is the
JS Map discipline of get-or-create followed by in-place mutation. -/
def alistUpdate {κ β : Type} [DecidableEq κ] (k : κ) (f : Option β → β) :
    List (κ × β) → List (κ × β)
  | [] => [(k, f none)]
  | (k', v) :: r => if k = k' then (k', f (some v)) :: r else (k', v) :: alistUpdate k f r

/-- createGroup from createTestGroups: a fresh group carrying the test's
worker hash, require file, repeatEach index, project id and the run mode
of the test's project, with no tests yet. -/
def createGroup (test : TestCase) : TestGroup :=
  { workerHash := test.workerHash
    requireFile := test.requireFile
    repeatEachIndex := test.repeatEachIndex
    projectId := test.projectId
    run := test.projectRun
    tests := []
    watchMode := false }

/-- group.tests.push(test). -/
def pushTest (g : TestGroup) (t : TestCase) : TestGroup :=
  { g with tests := g.tests ++ [t] }

/-- The three containers of one (workerHash, requireFile) bucket of the
grouper. -/
structure BucketGroups where
  general : TestGroup
  parallel : List (GroupKey × TestGroup)
  parallelWithHooks : TestGroup
deriving DecidableEq

/-- The grouper's nested map: workerHash to requireFile to bucket, with
JS Map insertion order modelled by association lists. -/
abbrev GroupsMap := List (String × List (String × BucketGroups))

/-- Where a test is placed within its bucket. -/
inductive Placement where
  | general
  | parallelWithHooks
  | parallel (key : GroupKey)
deriving DecidableEq

/-- The parent-chain walk of createTestGroups: starting from
(false, undefined, false), each ancestor (nearest first) updates
insideParallel, outerMostSerialSuite and hasAllHooks exactly as the
source loop does. -/
def chainScanStep (acc : Bool × Option SuiteAttrs × Bool) (parent : SuiteAttrs) :
    Bool × Option SuiteAttrs × Bool :=
  (acc.1 || parent.parallelMode = PMode.parallel,
   if parent.parallelMode = PMode.serial then some parent else acc.2.1,
   acc.2.2 || parent.hooks.any fun h => h = HookType.beforeAll || h = HookType.afterAll)

def chainScan (chain : List SuiteAttrs) : Bool × Option SuiteAttrs × Bool :=
  chain.foldl chainScanStep (false, none, false)

/-- The placement decision of createTestGroups for one test, given its
ancestor chain (nearest ancestor first): compute insideParallel,
outerMostSerialSuite and hasAllHooks by the source's walk, then branch
exactly as the source does. -/
def chooseContainer (test : TestCase) (chain : List SuiteAttrs) : Placement :=
  let scan := chainScan chain
  let insideParallel := scan.1
  let outerMostSerialSuite := scan.2.1
  let hasAllHooks := scan.2.2
  if insideParallel then
    if hasAllHooks && outerMostSerialSuite.isNone then
      Placement.parallelWithHooks
    else
      Placement.parallel
        (match outerMostSerialSuite with
         | some s => GroupKey.suiteKey s.id
         | none => GroupKey.testKey test.id)
  else
    Placement.general

/-- Place one test into its bucket's container, as createTestGroups
does after the walk. -/
def placeInBucket (test : TestCase) (chain : List SuiteAttrs) (b : BucketGroups) :
    BucketGroups :=
  match chooseContainer test chain with
  | .general => { b with general := pushTest b.general test }
  | .parallelWithHooks => { b with parallelWithHooks := pushTest b.parallelWithHooks test }
  | .parallel key =>
      { b with parallel :=
          alistUpdate key (fun g? => pushTest (g?.getD (createGroup test)) test) b.parallel }

/-- One iteration of the grouper's main loop: fetch or create the
(workerHash, requireFile) bucket, then place the test. -/
def buildStep (m : GroupsMap) (tc : TestCase × List SuiteAttrs) : GroupsMap :=
  alistUpdate tc.1.workerHash
    (fun inner? =>
      alistUpdate tc.1.requireFile
        (fun b? =>
          placeInBucket tc.1 tc.2
            (b?.getD
              { general := createGroup tc.1
                parallel := []
                parallelWithHooks := createGroup tc.1 }))
        (inner?.getD []))
    m

mutual
/-- All tests of a suite together with their ancestor chains (nearest
ancestor first); models iterating projectSuite.allTests() and walking
test.parent links in createTestGroups. -/
def collectWithChains (above : List SuiteAttrs) : Suite → List (TestCase × List SuiteAttrs)
  | .mk a es => collectEntriesWithChains (a :: above) es

def collectEntriesWithChains (chainHere : List SuiteAttrs) :
    List SuiteEntry → List (TestCase × List SuiteAttrs)
  | [] => []
  | .testEntry t :: es => (t, chainHere) :: collectEntriesWithChains chainHere es
  | .suiteEntry s :: es => collectWithChains chainHere s ++ collectEntriesWithChains chainHere es
end

/-- The grouper's map after processing all tests of all project suites. -/
def buildGroupsMap (projectSuites : List Suite) : GroupsMap :=
  (projectSuites.flatMap (collectWithChains [])).foldl buildStep []

/-- The emission loop for the parallelWithHooks container: contiguous
chunks, starting a new group whenever the last one reached the chunk
size. -/
def chunksGo (size : Nat) : List TestCase → TestGroup → List TestGroup
  | [], g => [g]
  | t :: ts, g =>
      if size ≤ g.tests.length then
        g :: chunksGo size ts (pushTest (createGroup t) t)
      else
        chunksGo size ts (pushTest g t)

/-- Emit the parallelWithHooks tests of one bucket: chunk size is
ceil(tests.length / workers) (for workers ≥ 1 this is the source's
Math.ceil(tests.length / workers)). -/
def emitParallelWithHooks (workers : Nat) (pwh : TestGroup) : List TestGroup :=
  let size := (pwh.tests.length + workers - 1) / workers
  match pwh.tests with
  | [] => []
  | t :: ts => chunksGo size ts (pushTest (createGroup t) t)

/-- Emit all test groups of one bucket, in source order: the general
group when non-empty, then the parallel map's groups, then the
parallelWithHooks chunks. -/
def emitBucket (workers : Nat) (b : BucketGroups) : List TestGroup :=
  (if b.general.tests.isEmpty then [] else [b.general]) ++
    b.parallel.map (fun kv => kv.2) ++ emitParallelWithHooks workers b.parallelWithHooks

/-- createTestGroups (runner.ts): build the nested map over all tests of
the project suites, then emit groups bucket by bucket. -/
def createTestGroups (projectSuites : List Suite) (workers : Nat) : List TestGroup :=
  (buildGroupsMap projectSuites).flatMap fun kv =>
    kv.2.flatMap fun kv2 => emitBucket workers kv2.2

/-- Spec-side wording of C1: the declarative placement rule.  No
ancestor parallel means general; some ancestor with a beforeAll or
afterAll hook and no serial ancestor means parallelWithHooks; otherwise
the parallel map keyed by the outermost serial ancestor (the last serial
suite in the nearest-first chain) or, failing that, the test itself. -/
def placementSpec (test : TestCase) (chain : List SuiteAttrs) : Placement :=
  if ¬ chain.any (fun p => p.parallelMode = PMode.parallel) then
    Placement.general
  else if (chain.any fun p => p.hooks.any fun h => h = HookType.beforeAll || h = HookType.afterAll)
      ∧ (chain.filter fun p => p.parallelMode = PMode.serial) = [] then
    Placement.parallelWithHooks
  else
    Placement.parallel
      (match (chain.filter fun p => p.parallelMode = PMode.serial).getLast? with
       | some s => GroupKey.suiteKey s.id
       | none => GroupKey.testKey test.id)

/-- The tests held by one container of a bucket. -/
def bucketContainer (b : BucketGroups) : Placement → List TestCase
  | .general => b.general.tests
  | .parallelWithHooks => b.parallelWithHooks.tests
  | .parallel k => ((alistGet k b.parallel).map (fun g => g.tests)).getD []

/-- The tests held by a given container of the (h, f) bucket of the
grouper map; empty when the bucket or the container does not exist. -/
def containerTests (m : GroupsMap) (h f : String) (p : Placement) : List TestCase :=
  match (alistGet h m).bind (alistGet f) with
  | none => []
  | some b => bucketContainer b p

theorem alistGet_update_self {κ β : Type} [DecidableEq κ] (k : κ) (f : Option β → β)
    (m : List (κ × β)) : alistGet k (alistUpdate k f m) = some (f (alistGet k m)) := by
  induction m with
  | nil => simp [alistGet, alistUpdate]
  | cons kv r ih =>
    obtain ⟨k', v⟩ := kv
    by_cases h : k = k'
    · simp [alistGet, alistUpdate, h]
    · simp [alistGet, alistUpdate, h, ih]

theorem alistGet_update_ne {κ β : Type} [DecidableEq κ] (k k' : κ) (f : Option β → β)
    (m : List (κ × β)) (hne : k' ≠ k) :
    alistGet k' (alistUpdate k f m) = alistGet k' m := by
  induction m with
  | nil => simp [alistGet, alistUpdate, hne]
  | cons kv r ih =>
    obtain ⟨k'', v⟩ := kv
    by_cases h : k = k''
    · subst h
      simp [alistGet, alistUpdate, hne]
    · by_cases h2 : k' = k''
      · simp [alistGet, alistUpdate, h, h2]
      · simp [alistGet, alistUpdate, h, h2, ih]

theorem chainScan_foldl (l : List SuiteAttrs) (b : Bool) (o : Option SuiteAttrs) (h : Bool) :
    l.foldl chainScanStep (b, o, h) =
      (b || l.any (fun p => p.parallelMode = PMode.parallel),
       ((l.filter (fun p => p.parallelMode = PMode.serial)).getLast?).or o,
       h || l.any (fun p => p.hooks.any fun hk => hk = HookType.beforeAll || hk = HookType.afterAll)) := by
  induction l generalizing b o h with
  | nil => simp
  | cons x l ih =>
    rw [List.foldl_cons, ih]
    by_cases hx : x.parallelMode = PMode.serial
    · have hfil : (x :: l).filter (fun p => p.parallelMode = PMode.serial) =
          x :: l.filter (fun p => p.parallelMode = PMode.serial) := by
        simp [List.filter_cons, hx]
      rw [hfil, List.getLast?_cons]
      cases hl : (l.filter (fun p => p.parallelMode = PMode.serial)).getLast? with
      | none => simp [chainScanStep, hx, hl, Bool.or_assoc]
      | some s => simp [chainScanStep, hx, hl, Bool.or_assoc]
    · have hfil : (x :: l).filter (fun p => p.parallelMode = PMode.serial) =
          l.filter (fun p => p.parallelMode = PMode.serial) := by
        simp [List.filter_cons, hx]
      rw [hfil]
      cases hl : (l.filter (fun p => p.parallelMode = PMode.serial)).getLast? with
      | none => simp [chainScanStep, hx, hl, Bool.or_assoc]
      | some s => simp [chainScanStep, hx, hl, Bool.or_assoc]

theorem chainScan_eq (l : List SuiteAttrs) :
    chainScan l =
      (l.any (fun p => p.parallelMode = PMode.parallel),
       (l.filter (fun p => p.parallelMode = PMode.serial)).getLast?,
       l.any (fun p => p.hooks.any fun hk => hk = HookType.beforeAll || hk = HookType.afterAll)) := by
  rw [chainScan, chainScan_foldl]
  simp

theorem chooseContainer_eq_spec (t : TestCase) (chain : List SuiteAttrs) :
    chooseContainer t chain = placementSpec t chain := by
  unfold chooseContainer placementSpec
  rw [chainScan_eq]
  by_cases hp : chain.any (fun p => p.parallelMode = PMode.parallel) = true
  · by_cases hser : chain.filter (fun p => p.parallelMode = PMode.serial) = []
    · by_cases hhook :
          chain.any (fun p => p.hooks.any fun hk => hk = HookType.beforeAll || hk = HookType.afterAll) = true
      · simp [hp, hser, hhook]
      · simp [hp, hser, hhook]
    · cases hl : (chain.filter (fun p => p.parallelMode = PMode.serial)).getLast? with
      | none => exact absurd (List.getLast?_eq_none_iff.mp hl) hser
      | some s => simp [hp, hser, hl]
  · simp [hp]

theorem placeInBucket_container (t : TestCase) (chain : List SuiteAttrs) (b : BucketGroups)
    (p : Placement) :
    bucketContainer (placeInBucket t chain b) p =
      bucketContainer b p ++ (if p = chooseContainer t chain then [t] else []) := by
  cases hC : chooseContainer t chain with
  | general =>
    cases p <;> simp [placeInBucket, hC, bucketContainer, pushTest]
  | parallelWithHooks =>
    cases p <;> simp [placeInBucket, hC, bucketContainer, pushTest]
  | parallel key =>
    cases p with
    | general => simp [placeInBucket, hC, bucketContainer]
    | parallelWithHooks => simp [placeInBucket, hC, bucketContainer]
    | parallel k =>
      by_cases hk : k = key
      · subst hk
        rw [placeInBucket, hC]
        simp only [bucketContainer, alistGet_update_self]
        cases hg : alistGet k b.parallel with
        | none => simp [pushTest, createGroup]
        | some g => simp [pushTest]
      · rw [placeInBucket, hC]
        simp only [bucketContainer, alistGet_update_ne _ _ _ _ hk]
        simp [hk]

/-- C1: for every test processed by the grouper, the grouper places the
test into exactly one of the three containers of its
(workerHash, requireFile) bucket, per the declarative rule of the claim:
no parallel ancestor puts it in general; a beforeAll or afterAll hook on
an ancestor with no serial ancestor puts it in parallelWithHooks;
otherwise it goes into the parallel map under the outermost serial
ancestor when one exists, else under the test itself.  Stated as:
the source's per-test placement decision equals the declarative rule,
and processing the test appends it to exactly that container of its
bucket, leaving every other container unchanged. -/
theorem c1_grouper_placement (t : TestCase) (chain : List SuiteAttrs) (m : GroupsMap) :
    chooseContainer t chain = placementSpec t chain ∧
    ∀ p : Placement,
      containerTests (buildStep m (t, chain)) t.workerHash t.requireFile p =
        containerTests m t.workerHash t.requireFile p ++
          (if p = placementSpec t chain then [t] else []) := by
  refine ⟨chooseContainer_eq_spec t chain, ?_⟩
  intro p
  rw [← chooseContainer_eq_spec t chain]
  unfold containerTests buildStep
  rw [alistGet_update_self]
  simp only [Option.bind_some, Option.some_bind]
  rw [alistGet_update_self]
  cases h1 : alistGet t.workerHash m with
  | none =>
    simp only [Option.getD_none, Option.none_bind]
    have : alistGet t.requireFile ([] : List (String × BucketGroups)) = none := rfl
    rw [this]
    simp only [Option.getD_none]
    rw [placeInBucket_container]
    cases hC : chooseContainer t chain with
    | general => cases p <;> simp [bucketContainer, createGroup, alistGet, hC]
    | parallelWithHooks => cases p <;> simp [bucketContainer, createGroup, alistGet, hC]
    | parallel key => cases p <;> simp [bucketContainer, createGroup, alistGet, hC]
  | some inner =>
    simp only [Option.getD_some, Option.some_bind]
    cases h2 : alistGet t.requireFile inner with
    | none =>
      simp only [Option.getD_none]
      rw [placeInBucket_container]
      cases hC : chooseContainer t chain with
      | general => cases p <;> simp [bucketContainer, createGroup, alistGet, hC]
      | parallelWithHooks => cases p <;> simp [bucketContainer, createGroup, alistGet, hC]
      | parallel key => cases p <;> simp [bucketContainer, createGroup, alistGet, hC]
    | some b =>
      simp only [Option.getD_some]
      rw [placeInBucket_container]

theorem chunksGo_ne_nil (size : Nat) (ts : List TestCase) (g : TestGroup) :
    chunksGo size ts g ≠ [] := by
  induction ts generalizing g with
  | nil => simp [chunksGo]
  | cons t ts ih =>
    rw [chunksGo]
    by_cases h : size ≤ g.tests.length
    · simp [h]
    · simp only [h, if_neg h]
      exact ih _

theorem getLast?_cons_of_ne_nil {α : Type} (a : α) (l : List α) (h : l ≠ []) :
    (a :: l).getLast? = l.getLast? := by
  cases hl : l.getLast? with
  | none => exact absurd (List.getLast?_eq_none_iff.mp hl) h
  | some x => rw [List.getLast?_cons, hl]; rfl

theorem chunksGo_spec (size : Nat) (ts : List TestCase) (g : TestGroup)
    (hg1 : 1 ≤ g.tests.length) (hgs : g.tests.length ≤ size) :
    (chunksGo size ts g).flatMap (fun g' => g'.tests) = g.tests ++ ts ∧
    (∀ g' ∈ (chunksGo size ts g).dropLast, g'.tests.length = size) ∧
    (∀ g', (chunksGo size ts g).getLast? = some g' →
      1 ≤ g'.tests.length ∧ g'.tests.length ≤ size) := by
  induction ts generalizing g with
  | nil =>
    refine ⟨by simp [chunksGo], by simp [chunksGo], ?_⟩
    intro g' hg'
    simp [chunksGo] at hg'
    subst hg'
    exact ⟨hg1, hgs⟩
  | cons t ts ih =>
    rw [chunksGo]
    by_cases h : size ≤ g.tests.length
    · have hfull : g.tests.length = size := le_antisymm hgs h
      simp only [if_pos h]
      have hnew : (pushTest (createGroup t) t).tests = [t] := by
        simp [pushTest, createGroup]
      have h1 : 1 ≤ (pushTest (createGroup t) t).tests.length := by rw [hnew]; simp
      have h2 : (pushTest (createGroup t) t).tests.length ≤ size := by
        rw [hnew]; simpa using le_trans hg1 hgs
      obtain ⟨ihA, ihB, ihC⟩ := ih (pushTest (createGroup t) t) h1 h2
      refine ⟨?_, ?_, ?_⟩
      · rw [List.flatMap_cons, ihA, hnew]
        simp
      · intro g' hg'
        rw [List.dropLast_cons_of_ne_nil (chunksGo_ne_nil _ _ _)] at hg'
        rcases List.mem_cons.mp hg' with rfl | hg'
        · exact hfull
        · exact ihB g' hg'
      · intro g' hg'
        rw [getLast?_cons_of_ne_nil _ _ (chunksGo_ne_nil _ _ _)] at hg'
        exact ihC g' hg'
    · simp only [if_neg h]
      have hpush : (pushTest g t).tests = g.tests ++ [t] := rfl
      have h1 : 1 ≤ (pushTest g t).tests.length := by rw [hpush]; simp
      have h2 : (pushTest g t).tests.length ≤ size := by rw [hpush]; simp; omega
      obtain ⟨ihA, ihB, ihC⟩ := ih (pushTest g t) h1 h2
      refine ⟨?_, ihB, ihC⟩
      rw [ihA, hpush]
      simp

/-- C5: for every bucket, the parallelWithHooks tests are emitted as
contiguous chunks in order: their concatenation is the container's test
list, every chunk except possibly the last has exactly
ceil(n / workers) tests, and the final chunk is non-empty and no larger.
The concrete instance (5 tests, workers = 2, sizes 3 and 2) is checked
in the witness. -/
theorem c5_parallel_with_hooks_chunking (workers : Nat) (pwh : TestGroup)
    (hw : 1 ≤ workers) :
    (emitParallelWithHooks workers pwh).flatMap (fun g => g.tests) = pwh.tests ∧
    (∀ g ∈ (emitParallelWithHooks workers pwh).dropLast,
      g.tests.length = (pwh.tests.length + workers - 1) / workers) ∧
    (∀ g, (emitParallelWithHooks workers pwh).getLast? = some g →
      1 ≤ g.tests.length ∧
        g.tests.length ≤ (pwh.tests.length + workers - 1) / workers) := by
  rcases hts : pwh.tests with _ | ⟨t, ts⟩
  · rw [emitParallelWithHooks, hts]
    simp
  · rw [emitParallelWithHooks, hts]
    simp only
    have hnew : (pushTest (createGroup t) t).tests = [t] := by simp [pushTest, createGroup]
    have hsz : 1 ≤ ((t :: ts).length + workers - 1) / workers := by
      rw [Nat.one_le_div_iff (by omega)]
      simp [List.length_cons]
    obtain ⟨hA, hB, hC⟩ :=
      chunksGo_spec (((t :: ts).length + workers - 1) / workers) ts
        (pushTest (createGroup t) t) (by rw [hnew]; simp) (by rw [hnew]; simpa using hsz)
    refine ⟨?_, ?_, ?_⟩
    · rw [hA, hnew]
      simp
    · simpa [hts] using hB
    · simpa [hts] using hC

/-- The tests fed to the grouper, in processing order. -/
def inputTests (projectSuites : List Suite) : List TestCase :=
  (projectSuites.flatMap (collectWithChains [])).map (fun tc => tc.1)

/-- A test legitimately held by the (h, f) bucket: it is an input test
whose worker hash and require file are the bucket keys. -/
def TestFits (h f : String) (S : List TestCase) (t : TestCase) : Prop :=
  t ∈ S ∧ t.workerHash = h ∧ t.requireFile = f

/-- A group of the (h, f) bucket is well-formed: its identifying fields
come from some input test of the bucket, and all its tests belong to the
bucket. -/
def GroupOrigin (h f : String) (S : List TestCase) (g : TestGroup) : Prop :=
  g.workerHash = h ∧ g.requireFile = f ∧
  (∃ t0, TestFits h f S t0 ∧ g.repeatEachIndex = t0.repeatEachIndex ∧
    g.projectId = t0.projectId) ∧
  ∀ t ∈ g.tests, TestFits h f S t

def BucketInv (h f : String) (S : List TestCase) (b : BucketGroups) : Prop :=
  GroupOrigin h f S b.general ∧ (∀ kv ∈ b.parallel, GroupOrigin h f S kv.2) ∧
    GroupOrigin h f S b.parallelWithHooks

def MapInv (S : List TestCase) (m : GroupsMap) : Prop :=
  ∀ kv ∈ m, ∀ kv2 ∈ kv.2, BucketInv kv.1 kv2.1 S kv2.2

theorem groupOrigin_createGroup (h f : String) (S : List TestCase) (t : TestCase)
    (ht : TestFits h f S t) : GroupOrigin h f S (createGroup t) :=
  ⟨ht.2.1, ht.2.2, ⟨t, ht, rfl, rfl⟩, by simp [createGroup]⟩

theorem groupOrigin_pushTest (h f : String) (S : List TestCase) (g : TestGroup) (t : TestCase)
    (hg : GroupOrigin h f S g) (ht : TestFits h f S t) :
    GroupOrigin h f S (pushTest g t) := by
  refine ⟨hg.1, hg.2.1, hg.2.2.1, ?_⟩
  intro t' ht'
  simp only [pushTest, List.mem_append, List.mem_singleton] at ht'
  rcases ht' with ht' | rfl
  · exact hg.2.2.2 t' ht'
  · exact ht

theorem alistUpdate_forall_keyed {κ β : Type} [DecidableEq κ] (P : κ → β → Prop)
    (k : κ) (f : Option β → β) (m : List (κ × β))
    (hm : ∀ kv ∈ m, P kv.1 kv.2) (hnone : P k (f none))
    (hsome : ∀ v, P k v → P k (f (some v))) :
    ∀ kv ∈ alistUpdate k f m, P kv.1 kv.2 := by
  induction m with
  | nil =>
    intro kv hkv
    simp only [alistUpdate, List.mem_singleton] at hkv
    subst hkv
    exact hnone
  | cons kv0 r ih =>
    obtain ⟨k0, v0⟩ := kv0
    intro kv hkv
    rw [alistUpdate] at hkv
    by_cases hk : k = k0
    · rw [if_pos hk] at hkv
      rcases List.mem_cons.mp hkv with h | h
      · subst h
        subst hk
        exact hsome v0 (hm (k, v0) (List.mem_cons_self _ _))
      · exact hm kv (List.mem_cons_of_mem _ h)
    · rw [if_neg hk] at hkv
      rcases List.mem_cons.mp hkv with h | h
      · subst h
        exact hm (k0, v0) (List.mem_cons_self _ _)
      · exact ih (fun kv' hkv' => hm kv' (List.mem_cons_of_mem _ hkv')) kv h

theorem bucketInv_place (h f : String) (S : List TestCase) (t : TestCase)
    (chain : List SuiteAttrs) (b : BucketGroups)
    (hb : BucketInv h f S b) (ht : TestFits h f S t) :
    BucketInv h f S (placeInBucket t chain b) := by
  obtain ⟨hgen, hpar, hpwh⟩ := hb
  cases hC : chooseContainer t chain with
  | general =>
    have hplace : placeInBucket t chain b = { b with general := pushTest b.general t } := by
      rw [placeInBucket, hC]
    rw [hplace]
    exact ⟨groupOrigin_pushTest h f S _ t hgen ht, hpar, hpwh⟩
  | parallelWithHooks =>
    have hplace : placeInBucket t chain b =
        { b with parallelWithHooks := pushTest b.parallelWithHooks t } := by
      rw [placeInBucket, hC]
    rw [hplace]
    exact ⟨hgen, hpar, groupOrigin_pushTest h f S _ t hpwh ht⟩
  | parallel key =>
    have hplace : placeInBucket t chain b =
        { b with parallel :=
            alistUpdate key (fun g? => pushTest (g?.getD (createGroup t)) t) b.parallel } := by
      rw [placeInBucket, hC]
    rw [hplace]
    refine ⟨hgen, ?_, hpwh⟩
    have hsome : ∀ g, GroupOrigin h f S g →
        GroupOrigin h f S (pushTest ((some g).getD (createGroup t)) t) :=
      fun g hg => groupOrigin_pushTest h f S _ t hg ht
    have hnone : GroupOrigin h f S (pushTest ((none : Option TestGroup).getD (createGroup t)) t) :=
      groupOrigin_pushTest h f S _ t (groupOrigin_createGroup h f S t ht) ht
    exact alistUpdate_forall_keyed (fun _ g => GroupOrigin h f S g) key _ b.parallel hpar
      hnone hsome

theorem bucketInv_fresh (S : List TestCase) (t : TestCase)
    (ht : TestFits t.workerHash t.requireFile S t) :
    BucketInv t.workerHash t.requireFile S
      { general := createGroup t, parallel := [], parallelWithHooks := createGroup t } :=
  ⟨groupOrigin_createGroup _ _ S t ht, by simp, groupOrigin_createGroup _ _ S t ht⟩

theorem mapInv_buildStep (S : List TestCase) (m : GroupsMap) (t : TestCase)
    (chain : List SuiteAttrs) (hm : MapInv S m) (htS : t ∈ S) :
    MapInv S (buildStep m (t, chain)) := by
  have ht : TestFits t.workerHash t.requireFile S t := ⟨htS, rfl, rfl⟩
  unfold MapInv buildStep
  have hm' : ∀ kv ∈ m,
      (fun (h : String) (inner : List (String × BucketGroups)) =>
        ∀ kv2 ∈ inner, BucketInv h kv2.1 S kv2.2) kv.1 kv.2 := hm
  have hinner : ∀ (inner? : Option (List (String × BucketGroups))),
      (∀ kv2 ∈ inner?.getD [], BucketInv t.workerHash kv2.1 S kv2.2) →
      ∀ kv2 ∈ alistUpdate t.requireFile
          (fun b? =>
            placeInBucket t chain
              (b?.getD
                { general := createGroup t
                  parallel := []
                  parallelWithHooks := createGroup t }))
          (inner?.getD []),
        BucketInv t.workerHash kv2.1 S kv2.2 := by
    intro inner? hbase
    refine alistUpdate_forall_keyed (fun f b => BucketInv t.workerHash f S b) _ _ _ hbase ?_ ?_
    · exact bucketInv_place _ _ S t chain _ (bucketInv_fresh S t ht) ht
    · intro b hb
      exact bucketInv_place _ _ S t chain b hb ht
  intro kv hkv
  refine alistUpdate_forall_keyed
    (fun (h : String) (inner : List (String × BucketGroups)) =>
      ∀ kv2 ∈ inner, BucketInv h kv2.1 S kv2.2) t.workerHash _ m hm' ?_ ?_ kv hkv
  · exact hinner none (by simp)
  · intro inner hin
    exact hinner (some inner) hin

theorem mapInv_foldl (S : List TestCase) (l : List (TestCase × List SuiteAttrs))
    (m : GroupsMap) (hm : MapInv S m) (hl : ∀ tc ∈ l, tc.1 ∈ S) :
    MapInv S (l.foldl buildStep m) := by
  induction l generalizing m with
  | nil => exact hm
  | cons tc l ih =>
    rw [List.foldl_cons]
    refine ih (buildStep m tc) ?_ (fun tc' htc' => hl tc' (List.mem_cons_of_mem _ htc'))
    obtain ⟨t, chain⟩ := tc
    exact mapInv_buildStep S m t chain hm (hl (t, chain) (List.mem_cons_self _ _))

theorem chunksGo_origin (h f : String) (S : List TestCase) (size : Nat)
    (ts : List TestCase) (g : TestGroup)
    (hts : ∀ t ∈ ts, TestFits h f S t) (hg : GroupOrigin h f S g) :
    ∀ g' ∈ chunksGo size ts g, GroupOrigin h f S g' := by
  induction ts generalizing g with
  | nil =>
    intro g' hg'
    simp only [chunksGo, List.mem_singleton] at hg'
    subst hg'
    exact hg
  | cons t ts ih =>
    have ht : TestFits h f S t := hts t (List.mem_cons_self _ _)
    have hts' : ∀ t' ∈ ts, TestFits h f S t' := fun t' h' => hts t' (List.mem_cons_of_mem _ h')
    intro g' hg'
    rw [chunksGo] at hg'
    by_cases hcond : size ≤ g.tests.length
    · rw [if_pos hcond] at hg'
      rcases List.mem_cons.mp hg' with rfl | hg'
      · exact hg
      · exact ih _ hts'
          (groupOrigin_pushTest h f S _ t (groupOrigin_createGroup h f S t ht) ht) g' hg'
    · rw [if_neg hcond] at hg'
      exact ih _ hts' (groupOrigin_pushTest h f S _ t hg ht) g' hg'

theorem emitBucket_origin (h f : String) (S : List TestCase) (workers : Nat)
    (b : BucketGroups) (hb : BucketInv h f S b) :
    ∀ g ∈ emitBucket workers b, GroupOrigin h f S g := by
  obtain ⟨hgen, hpar, hpwh⟩ := hb
  intro g hg
  rw [emitBucket] at hg
  rcases List.mem_append.mp hg with hg' | hg
  · rcases List.mem_append.mp hg' with hg | hg
    · by_cases hne : b.general.tests.isEmpty = true
      · rw [if_pos hne] at hg
        simp at hg
      · rw [if_neg hne] at hg
        rw [List.mem_singleton] at hg
        subst hg
        exact hgen
    · obtain ⟨kv, hkv, rfl⟩ := List.mem_map.mp hg
      exact hpar kv hkv
  · rw [emitParallelWithHooks] at hg
    rcases hts : b.parallelWithHooks.tests with _ | ⟨t, ts⟩
    · rw [hts] at hg
      simp at hg
    · rw [hts] at hg
      have hall : ∀ t' ∈ b.parallelWithHooks.tests, TestFits h f S t' := hpwh.2.2.2
      rw [hts] at hall
      have ht : TestFits h f S t := hall t (List.mem_cons_self _ _)
      exact chunksGo_origin h f S _ ts _ (fun t' h' => hall t' (List.mem_cons_of_mem _ h'))
        (groupOrigin_pushTest h f S _ t (groupOrigin_createGroup h f S t ht) ht) g hg

theorem createTestGroups_origin (projectSuites : List Suite) (workers : Nat) :
    ∀ g ∈ createTestGroups projectSuites workers,
      ∃ h f, GroupOrigin h f (inputTests projectSuites) g := by
  intro g hg
  have hInv : MapInv (inputTests projectSuites) (buildGroupsMap projectSuites) := by
    refine mapInv_foldl _ _ [] (by simp [MapInv]) ?_
    intro tc htc
    exact List.mem_map.mpr ⟨tc, htc, rfl⟩
  rw [createTestGroups] at hg
  obtain ⟨kv, hkv, hg2⟩ := List.mem_flatMap.mp hg
  obtain ⟨kv2, hkv2, hg3⟩ := List.mem_flatMap.mp hg2
  exact ⟨kv.1, kv2.1, emitBucket_origin _ _ _ workers _ (hInv kv hkv kv2 hkv2) g hg3⟩

/-- C2 (amended): for every TestGroup emitted by the grouper, all its
tests share workerHash, requireFile, repeatEachIndex and projectId with
the group's own fields — provided any two input tests with equal
workerHash agree on repeatEachIndex and projectId (the invariant the
suite builder establishes; the claim is false for arbitrary suites, see
the counterexample). -/
theorem c2_group_purity (projectSuites : List Suite) (workers : Nat)
    (H : ∀ t1 ∈ inputTests projectSuites, ∀ t2 ∈ inputTests projectSuites,
      t1.workerHash = t2.workerHash →
        t1.repeatEachIndex = t2.repeatEachIndex ∧ t1.projectId = t2.projectId) :
    ∀ g ∈ createTestGroups projectSuites workers, ∀ t ∈ g.tests,
      t.workerHash = g.workerHash ∧ t.requireFile = g.requireFile ∧
      t.repeatEachIndex = g.repeatEachIndex ∧ t.projectId = g.projectId := by
  intro g hg t ht
  obtain ⟨h, f, hwh, hrf, ⟨t0, ht0, hrep, hproj⟩, htests⟩ :=
    createTestGroups_origin projectSuites workers g hg
  obtain ⟨htS, htwh, htrf⟩ := htests t ht
  have hhash : t.workerHash = t0.workerHash := by rw [htwh, ht0.2.1]
  obtain ⟨hrep2, hproj2⟩ := H t htS t0 ht0.1 hhash
  exact ⟨by rw [htwh, hwh], by rw [htrf, hrf], by rw [hrep2, hrep], by rw [hproj2, hproj]⟩

/-- Two tests sharing a workerHash and requireFile but differing in
repeatEachIndex, directly under one project suite. -/
def c2xSuite : Suite :=
  Suite.mk { id := 10, parallelMode := PMode.pmDefault, hooks := [],
             project := some { run := RunMode.runDefault } }
    [SuiteEntry.testEntry
       { id := 1, workerHash := "h", requireFile := "f", repeatEachIndex := 0,
         projectId := "p", projectRun := RunMode.runDefault },
     SuiteEntry.testEntry
       { id := 2, workerHash := "h", requireFile := "f", repeatEachIndex := 1,
         projectId := "p", projectRun := RunMode.runDefault }]

/-- C2 counterexample: over arbitrary input suites the claim fails — the
grouper buckets only by (workerHash, requireFile), so two tests that
share those but differ in repeatEachIndex land in one general group
whose repeatEachIndex is taken from the first test. -/
theorem c2_group_purity_counterexample :
    ∃ g ∈ createTestGroups [c2xSuite] 1, ∃ t ∈ g.tests,
      t.repeatEachIndex ≠ g.repeatEachIndex := by
  decide

/-- A consistent concrete input for the C2 witness. -/
def c2wSuite : Suite :=
  Suite.mk { id := 10, parallelMode := PMode.pmDefault, hooks := [],
             project := some { run := RunMode.runDefault } }
    [SuiteEntry.testEntry
       { id := 1, workerHash := "h", requireFile := "f", repeatEachIndex := 0,
         projectId := "p", projectRun := RunMode.runDefault },
     SuiteEntry.testEntry
       { id := 2, workerHash := "h", requireFile := "f", repeatEachIndex := 0,
         projectId := "p", projectRun := RunMode.runDefault }]

theorem c2_group_purity_witness :
    (∀ t1 ∈ inputTests [c2wSuite], ∀ t2 ∈ inputTests [c2wSuite],
      t1.workerHash = t2.workerHash →
        t1.repeatEachIndex = t2.repeatEachIndex ∧ t1.projectId = t2.projectId) ∧
    (∀ g ∈ createTestGroups [c2wSuite] 2, ∀ t ∈ g.tests,
      t.workerHash = g.workerHash ∧ t.requireFile = g.requireFile ∧
      t.repeatEachIndex = g.repeatEachIndex ∧ t.projectId = g.projectId) :=
  ⟨by decide, c2_group_purity [c2wSuite] 2 (by decide)⟩

/-- Shard configuration, 1-based current. -/
structure ShardConfig where
  current : Nat
  total : Nat
deriving DecidableEq

/-- projectSuite.project()!.run for a project suite (its attached
configuration's run mode). -/
def projectRunOf (s : Suite) : Option RunMode :=
  s.attrs.project.map (fun c => c.run)

/-- shardableTotal of _filterForCurrentShard: the loop summing
allTests().length over project suites whose run is not always. -/
def shardableTotalOf (root : Suite) : Nat :=
  root.suites.foldl
    (fun acc ps =>
      if ¬ projectRunOf ps = some RunMode.always then acc + ps.allTests.length else acc) 0

mutual
/-- filterSuiteWithOnlySemantics (runner.ts), written functionally over
the entries-primary tree: the source keeps child suites for which the
recursive call returned true or the suite filter holds, keeps tests
passing the test filter, filters _entries to the kept set preserving
order, and leaves the suite untouched (returning false) when nothing is
kept. -/
def filterSuiteWithOnlySemantics (sf : Suite → Bool) (tf : TestCase → Bool) :
    Suite → Suite × Bool
  | .mk a es =>
    let res := filterOnlyEntries sf tf es
    if res.isEmpty then (.mk a es, false) else (.mk a res, true)

def filterOnlyEntries (sf : Suite → Bool) (tf : TestCase → Bool) :
    List SuiteEntry → List SuiteEntry
  | [] => []
  | .testEntry t :: es =>
      (if tf t then [SuiteEntry.testEntry t] else []) ++ filterOnlyEntries sf tf es
  | .suiteEntry s :: es =>
      (let r := filterSuiteWithOnlySemantics sf tf s
       if r.2 || sf r.1 then [SuiteEntry.suiteEntry r.1] else []) ++ filterOnlyEntries sf tf es
end

mutual
/-- filterSuite (runner.ts): recurse into child suites not accepted by
the suite filter, keep every child suite, filter tests, and filter
_entries to the kept set preserving order. -/
def filterSuite (sf : Suite → Bool) (tf : TestCase → Bool) : Suite → Suite
  | .mk a es => .mk a (filterEntries sf tf es)

def filterEntries (sf : Suite → Bool) (tf : TestCase → Bool) :
    List SuiteEntry → List SuiteEntry
  | [] => []
  | .testEntry t :: es =>
      (if tf t then [SuiteEntry.testEntry t] else []) ++ filterEntries sf tf es
  | .suiteEntry s :: es =>
      SuiteEntry.suiteEntry (if sf s then s else filterSuite sf tf s) :: filterEntries sf tf es
end

/-- The inner loop of _filterForCurrentShard over one stage: always
groups are retained without advancing the counter; a shardable group is
retained iff the counter before its tests lies in [lo, hi), and the
counter then advances by its test count. -/
def shardGroupsInStage (lo hi : Nat) : List TestGroup → Nat → List TestGroup × Nat
  | [], c => ([], c)
  | g :: gs, c =>
    if g.run = RunMode.always then
      let r := shardGroupsInStage lo hi gs c
      (g :: r.1, r.2)
    else
      let r := shardGroupsInStage lo hi gs (c + g.tests.length)
      ((if lo ≤ c ∧ c < hi then [g] else []) ++ r.1, r.2)

/-- The outer loop of _filterForCurrentShard: the counter runs across
stages; stages left empty are dropped. -/
def shardWalk (lo hi : Nat) : List (List TestGroup) → Nat → List (List TestGroup) × Nat
  | [], c => ([], c)
  | st :: sts, c =>
    let r1 := shardGroupsInStage lo hi st c
    let r2 := shardWalk lo hi sts r1.2
    ((if r1.1.isEmpty then [] else [r1.1]) ++ r2.1, r2.2)

/-- Runner._filterForCurrentShard: with no shard configured the inputs
are untouched; otherwise compute the [from, to) window from
shardableTotal, retain groups by the counter walk, and prune the suite
tree with only-semantics filtering to the retained tests. -/
def filterForCurrentShard (shard : Option ShardConfig) (root : Suite)
    (stages : List (List TestGroup)) : Suite × List (List TestGroup) :=
  match shard with
  | none => (root, stages)
  | some sh =>
    let shardableTotal := shardableTotalOf root
    let shardSize := shardableTotal / sh.total
    let extraOne := shardableTotal - shardSize * sh.total
    let currentShard := sh.current - 1
    let lo := shardSize * currentShard + min extraOne currentShard
    let hi := lo + shardSize + (if currentShard < extraOne then 1 else 0)
    let sharded := (shardWalk lo hi stages 0).1
    let shardTestIds := (sharded.flatMap id).flatMap (fun g => g.tests.map (fun t => t.id))
    ((filterSuiteWithOnlySemantics (fun _ => false) (fun t => t.id ∈ shardTestIds) root).1,
     sharded)

/-- Spec side: each group of a stage annotated with the number of
shardable tests occurring before it. -/
def groupsWithOffsets (c : Nat) : List TestGroup → List (TestGroup × Nat)
  | [] => []
  | g :: gs =>
    if g.run = RunMode.always then (g, c) :: groupsWithOffsets c gs
    else (g, c) :: groupsWithOffsets (c + g.tests.length) gs

/-- The number of shardable tests in a list of groups. -/
def shardableCount (gs : List TestGroup) : Nat :=
  ((gs.filter (fun g => ¬ g.run = RunMode.always)).map (fun g => g.tests.length)).sum

/-- Spec side: all stages annotated, the counter running across
stages. -/
def stagesWithOffsets (c : Nat) : List (List TestGroup) → List (List (TestGroup × Nat))
  | [] => []
  | st :: sts => groupsWithOffsets c st :: stagesWithOffsets (c + shardableCount st) sts

/-- Spec side, C3's retention rule: a group annotated with its offset is
kept iff it runs always or its offset lies in [lo, hi). -/
def shardKeepB (lo hi : Nat) (p : TestGroup × Nat) : Bool :=
  decide (p.1.run = RunMode.always ∨ (lo ≤ p.2 ∧ p.2 < hi))

theorem shardGroupsInStage_spec (lo hi : Nat) (gs : List TestGroup) (c : Nat) :
    shardGroupsInStage lo hi gs c =
      (((groupsWithOffsets c gs).filter (shardKeepB lo hi)).map (fun p => p.1),
        c + shardableCount gs) := by
  induction gs generalizing c with
  | nil => simp [shardGroupsInStage, groupsWithOffsets, shardableCount]
  | cons g gs ih =>
    by_cases hrun : g.run = RunMode.always
    · rw [shardGroupsInStage, if_pos hrun, groupsWithOffsets, if_pos hrun]
      have hcount : shardableCount (g :: gs) = shardableCount gs := by
        simp [shardableCount, List.filter_cons, hrun]
      have hkeep : shardKeepB lo hi (g, c) = true := by
        simp [shardKeepB, hrun]
      rw [hcount, List.filter_cons, hkeep]
      rw [ih]
      simp
    · rw [shardGroupsInStage, if_neg hrun, groupsWithOffsets, if_neg hrun]
      have hcount : shardableCount (g :: gs) = g.tests.length + shardableCount gs := by
        simp [shardableCount, List.filter_cons, hrun]
      rw [hcount, List.filter_cons]
      by_cases hrange : lo ≤ c ∧ c < hi
      · have hkeep : shardKeepB lo hi (g, c) = true := by
          simp [shardKeepB, hrange]
        rw [hkeep, if_pos hrange, ih]
        rw [Prod.mk.injEq]
        exact ⟨by simp, by omega⟩
      · have hkeep : shardKeepB lo hi (g, c) = false := by
          simp only [shardKeepB, decide_eq_false_iff_not]
          intro hcontra
          rcases hcontra with hcontra | hcontra
          · exact hrun hcontra
          · exact hrange hcontra
        rw [hkeep, if_neg hrange, ih]
        rw [Prod.mk.injEq]
        exact ⟨by simp, by omega⟩

theorem shardWalk_spec (lo hi : Nat) (stages : List (List TestGroup)) (c : Nat) :
    shardWalk lo hi stages c =
      (((stagesWithOffsets c stages).map (fun st =>
          (st.filter (shardKeepB lo hi)).map (fun p => p.1))).filter
            (fun l => !l.isEmpty),
        c + (stages.map shardableCount).sum) := by
  induction stages generalizing c with
  | nil => simp [shardWalk, stagesWithOffsets]
  | cons st sts ih =>
    rw [shardWalk]
    simp only [shardGroupsInStage_spec, ih, stagesWithOffsets, List.map_cons, List.filter_cons,
      Prod.mk.injEq]
    cases hstEmpty : (((groupsWithOffsets c st).filter (shardKeepB lo hi)).map
        (fun p => p.1)).isEmpty
    · simp [hstEmpty]
      omega
    · simp [hstEmpty]
      omega

theorem shardableTotal_foldl (l : List Suite) (a : Nat) :
    l.foldl
      (fun acc ps =>
        if ¬ projectRunOf ps = some RunMode.always then acc + ps.allTests.length else acc) a =
      a + ((l.filter (fun ps => ¬ projectRunOf ps = some RunMode.always)).map
        (fun ps => ps.allTests.length)).sum := by
  induction l generalizing a with
  | nil => simp
  | cons ps l ih =>
    rw [List.foldl_cons, List.filter_cons]
    by_cases hps : ¬ projectRunOf ps = some RunMode.always
    · rw [if_pos hps, ih]
      simp [hps]
      omega
    · rw [if_neg hps, ih]
      simp [hps]

/-- C3: with a shard configuration set, the retained stages are exactly
described by: shardSize = floor(shardableTotal / total), extraOne =
shardableTotal - shardSize * total, k = current - 1, from = shardSize * k
+ min(extraOne, k), to = from + shardSize + (1 if k < extraOne else 0);
annotating every group with the number of shardable tests seen before it
(the counter, which always-groups do not advance), a group is retained
iff it runs always or its offset lies in [from, to), and emptied stages
are dropped.  shardableTotal is the total test count of project suites
whose run is not always. -/
theorem c3_shard_filter_characterization (root : Suite) (stages : List (List TestGroup))
    (current total : Nat) :
    shardableTotalOf root =
      ((root.suites.filter (fun ps => ¬ projectRunOf ps = some RunMode.always)).map
        (fun ps => ps.allTests.length)).sum ∧
    (filterForCurrentShard (some ⟨current, total⟩) root stages).2 =
      ((stagesWithOffsets 0 stages).map (fun st =>
        (st.filter (shardKeepB
          (shardableTotalOf root / total * (current - 1) +
            min (shardableTotalOf root - shardableTotalOf root / total * total) (current - 1))
          (shardableTotalOf root / total * (current - 1) +
            min (shardableTotalOf root - shardableTotalOf root / total * total) (current - 1) +
            shardableTotalOf root / total +
            (if current - 1 < shardableTotalOf root - shardableTotalOf root / total * total
             then 1 else 0)))).map (fun p => p.1))).filter (fun l => !l.isEmpty) := by
  constructor
  · rw [shardableTotalOf, shardableTotal_foldl]
    simp
  · simp only [filterForCurrentShard]
    rw [shardWalk_spec]

/-- A shardable group: one whose run mode is not always. -/
def isShardableB (g : TestGroup) : Bool :=
  decide (¬ g.run = RunMode.always)

/-- The from-bound of 0-based shard k when S shardable tests are split
over total shards (shardSize * k + min(extraOne, k)). -/
def shardLoOf (S total k : Nat) : Nat :=
  S / total * k + min (S - S / total * total) k

/-- The to-bound: from + shardSize + (1 if k < extraOne else 0). -/
def shardHiOf (S total k : Nat) : Nat :=
  shardLoOf S total k + S / total + (if k < S - S / total * total then 1 else 0)

theorem shardLo_zero (S total : Nat) : shardLoOf S total 0 = 0 := by
  simp [shardLoOf]

theorem shardHi_eq_lo_succ (S total k : Nat) :
    shardHiOf S total k = shardLoOf S total (k + 1) := by
  unfold shardHiOf shardLoOf
  rw [Nat.mul_succ]
  by_cases h : k < S - S / total * total
  · rw [if_pos h]
    omega
  · rw [if_neg h]
    omega

theorem shardLo_mono (S total k k' : Nat) (hkk : k ≤ k') :
    shardLoOf S total k ≤ shardLoOf S total k' := by
  unfold shardLoOf
  have h1 : S / total * k ≤ S / total * k' := Nat.mul_le_mul_left _ hkk
  omega

theorem shardLo_total (S total : Nat) (h0 : 0 < total) : shardLoOf S total total = S := by
  unfold shardLoOf
  have hdm : S / total * total + S % total = S := by
    rw [Nat.mul_comm]
    exact Nat.div_add_mod S total
  have hmod : S % total < total := Nat.mod_lt S h0
  omega

theorem shardHi_le_lo (S total i j : Nat) (hij : i < j) :
    shardHiOf S total i ≤ shardLoOf S total j := by
  rw [shardHi_eq_lo_succ]
  exact shardLo_mono S total _ _ hij

theorem shard_coverage (S total m : Nat) :
    ∀ p, p < shardLoOf S total m →
      ∃ k, k < m ∧ shardLoOf S total k ≤ p ∧ p < shardHiOf S total k := by
  induction m with
  | zero =>
    intro p hp
    rw [shardLo_zero] at hp
    omega
  | succ m ih =>
    intro p hp
    by_cases hpm : p < shardLoOf S total m
    · obtain ⟨k, hk, h1, h2⟩ := ih p hpm
      exact ⟨k, Nat.lt_succ_of_lt hk, h1, h2⟩
    · refine ⟨m, Nat.lt_succ_self m, by omega, ?_⟩
      rw [shardHi_eq_lo_succ]
      omega

/-- The total test count of a list of groups. -/
def sumLen (gs : List TestGroup) : Nat :=
  (gs.map (fun g => g.tests.length)).sum

/-- Groups annotated with cumulative test counts starting at c. -/
def withCum (c : Nat) : List TestGroup → List (TestGroup × Nat)
  | [] => []
  | g :: gs => (g, c) :: withCum (c + g.tests.length) gs

theorem withCum_append (c : Nat) (a b : List TestGroup) :
    withCum c (a ++ b) = withCum c a ++ withCum (c + sumLen a) b := by
  induction a generalizing c with
  | nil => simp [withCum, sumLen]
  | cons g a ih =>
    rw [List.cons_append, withCum, withCum, ih]
    have : c + g.tests.length + sumLen a = c + sumLen (g :: a) := by
      simp [sumLen]
      omega
    rw [this]
    simp

theorem withCum_mem (c : Nat) (A : List TestGroup) (p : TestGroup × Nat)
    (hp : p ∈ withCum c A) :
    p.1 ∈ A ∧ c ≤ p.2 ∧ p.2 + p.1.tests.length ≤ c + sumLen A := by
  induction A generalizing c with
  | nil => simp [withCum] at hp
  | cons g A ih =>
    rw [withCum] at hp
    rcases List.mem_cons.mp hp with rfl | hp
    · refine ⟨List.mem_cons_self _ _, Nat.le_refl _, ?_⟩
      simp [sumLen]
    · obtain ⟨h1, h2, h3⟩ := ih _ hp
      refine ⟨List.mem_cons_of_mem _ h1, by omega, ?_⟩
      have : c + g.tests.length + sumLen A = c + sumLen (g :: A) := by
        simp [sumLen]
        omega
      omega

theorem withCum_exists (c : Nat) (A : List TestGroup) (t : TestCase)
    (ht : t ∈ A.flatMap (fun g => g.tests)) :
    ∃ p ∈ withCum c A, t ∈ p.1.tests := by
  induction A generalizing c with
  | nil => simp at ht
  | cons g A ih =>
    rw [List.flatMap_cons, List.mem_append] at ht
    rcases ht with ht | ht
    · exact ⟨(g, c), List.mem_cons_self _ _, ht⟩
    · obtain ⟨p, hp, hpt⟩ := ih (c + g.tests.length) ht
      exact ⟨p, List.mem_cons_of_mem _ hp, hpt⟩

theorem withCum_tests (c : Nat) (A : List TestGroup) :
    (withCum c A).flatMap (fun p => p.1.tests) = A.flatMap (fun g => g.tests) := by
  induction A generalizing c with
  | nil => simp [withCum]
  | cons g A ih =>
    rw [withCum, List.flatMap_cons, List.flatMap_cons, ih]

theorem withCum_unique (c : Nat) (A : List TestGroup)
    (hnodup : (A.flatMap (fun g => g.tests)).Nodup) (p p' : TestGroup × Nat)
    (hp : p ∈ withCum c A) (hp' : p' ∈ withCum c A) (t : TestCase)
    (htp : t ∈ p.1.tests) (htp' : t ∈ p'.1.tests) : p = p' := by
  induction A generalizing c with
  | nil => simp [withCum] at hp
  | cons g A ih =>
    rw [List.flatMap_cons] at hnodup
    have hdisj := (List.nodup_append.mp hnodup).2.2
    have hnodA : (A.flatMap (fun g => g.tests)).Nodup := (List.nodup_append.mp hnodup).2.1
    rw [withCum] at hp hp'
    rcases List.mem_cons.mp hp with rfl | hp
    · rcases List.mem_cons.mp hp' with rfl | hp'
      · rfl
      · exfalso
        have : t ∈ A.flatMap (fun g => g.tests) := by
          obtain ⟨h1, _, _⟩ := withCum_mem _ _ _ hp'
          exact List.mem_flatMap.mpr ⟨p'.1, h1, htp'⟩
        exact hdisj htp this
    · rcases List.mem_cons.mp hp' with rfl | hp'
      · exfalso
        have : t ∈ A.flatMap (fun g => g.tests) := by
          obtain ⟨h1, _, _⟩ := withCum_mem _ _ _ hp
          exact List.mem_flatMap.mpr ⟨p.1, h1, htp⟩
        exact hdisj htp' this
      · exact ih _ hnodA hp hp'

/-- The offset window test of the shard filter. -/
def inRangeB (lo hi : Nat) (p : TestGroup × Nat) : Bool :=
  decide (lo ≤ p.2 ∧ p.2 < hi)

/-- The non-always tests a given shard retains. -/
def retainedShardableTests (root : Suite) (stages : List (List TestGroup))
    (current total : Nat) : List TestCase :=
  (((filterForCurrentShard (some ⟨current, total⟩) root stages).2.flatMap id).filter
    isShardableB).flatMap (fun g => g.tests)

theorem flatMap_filter_nonempty {α : Type} (L : List (List α)) :
    (L.filter (fun l => !l.isEmpty)).flatMap id = L.flatMap id := by
  induction L with
  | nil => simp
  | cons l L ih =>
    by_cases hl : l = []
    · subst hl
      simp [ih]
    · have hne : (!l.isEmpty) = true := by simp [hl]
      rw [List.filter_cons, if_pos hne, List.flatMap_cons, List.flatMap_cons, ih]

theorem flatMap_filter_map {α β : Type} (L : List (List α)) (q : α → Bool) (f : α → β) :
    L.flatMap (fun l => (l.filter q).map f) = ((L.flatMap id).filter q).map f := by
  induction L with
  | nil => simp
  | cons l L ih =>
    rw [List.flatMap_cons, ih, List.flatMap_cons]
    simp [List.filter_append]

theorem shardableCount_eq (gs : List TestGroup) :
    shardableCount gs = sumLen (gs.filter isShardableB) := rfl

theorem groupsWithOffsets_shardable (c : Nat) (st : List TestGroup) :
    (groupsWithOffsets c st).filter (fun p => isShardableB p.1) =
      withCum c (st.filter isShardableB) := by
  induction st generalizing c with
  | nil => simp [groupsWithOffsets, withCum]
  | cons g st ih =>
    by_cases hrun : g.run = RunMode.always
    · have hsh : isShardableB g = false := by simp [isShardableB, hrun]
      rw [groupsWithOffsets, if_pos hrun, List.filter_cons, List.filter_cons]
      simp only [hsh, Bool.false_eq_true, if_false]
      exact ih c
    · have hsh : isShardableB g = true := by simp [isShardableB, hrun]
      rw [groupsWithOffsets, if_neg hrun, List.filter_cons, List.filter_cons]
      simp only [hsh, if_true]
      rw [withCum, ih]

theorem stagesWithOffsets_shardable (c : Nat) (stages : List (List TestGroup)) :
    ((stagesWithOffsets c stages).flatMap id).filter (fun p => isShardableB p.1) =
      withCum c ((stages.flatMap id).filter isShardableB) := by
  induction stages generalizing c with
  | nil => simp [stagesWithOffsets, withCum]
  | cons st sts ih =>
    rw [stagesWithOffsets, List.flatMap_cons, List.flatMap_cons]
    simp only [id_eq]
    rw [List.filter_append, List.filter_append, groupsWithOffsets_shardable, ih,
      withCum_append, shardableCount_eq]

theorem keep_comm_shardable (lo hi : Nat) (p : TestGroup × Nat) :
    (isShardableB p.1 && shardKeepB lo hi p) = (inRangeB lo hi p && isShardableB p.1) := by
  by_cases h : p.1.run = RunMode.always <;> by_cases hr : lo ≤ p.2 ∧ p.2 < hi <;>
    simp [shardKeepB, isShardableB, inRangeB, h, hr]

theorem retained_char (root : Suite) (stages : List (List TestGroup)) (current total : Nat) :
    retainedShardableTests root stages current total =
      ((withCum 0 ((stages.flatMap id).filter isShardableB)).filter
        (inRangeB (shardLoOf (shardableTotalOf root) total (current - 1))
          (shardHiOf (shardableTotalOf root) total (current - 1)))).flatMap
        (fun p => p.1.tests) := by
  unfold retainedShardableTests
  simp only [filterForCurrentShard]
  rw [shardWalk_spec]
  simp only
  rw [flatMap_filter_nonempty, List.flatMap_map]
  simp only [id_eq, Function.comp]
  rw [flatMap_filter_map, List.filter_map, List.flatMap_map]
  rw [List.filter_filter]
  simp only [Function.comp_apply]
  rw [List.filter_congr (fun p _ => keep_comm_shardable _ _ p)]
  rw [← List.filter_filter, stagesWithOffsets_shardable]
  rfl

theorem sumLen_singletons (A : List TestGroup) (h : ∀ g ∈ A, g.tests.length = 1) :
    sumLen A = A.length := by
  induction A with
  | nil => simp [sumLen]
  | cons g A ih =>
    have hg : g.tests.length = 1 := h g (List.mem_cons_self _ _)
    have : sumLen (g :: A) = g.tests.length + sumLen A := by
      simp [sumLen]
    rw [this, hg, ih (fun g' hg' => h g' (List.mem_cons_of_mem _ hg'))]
    simp [Nat.add_comm]

theorem flatMap_tests_length (L : List (TestGroup × Nat))
    (h : ∀ p ∈ L, p.1.tests.length = 1) :
    (L.flatMap (fun p => p.1.tests)).length = L.length := by
  induction L with
  | nil => simp
  | cons p L ih =>
    rw [List.flatMap_cons, List.length_append, h p (List.mem_cons_self _ _),
      ih (fun p' hp' => h p' (List.mem_cons_of_mem _ hp'))]
    rw [List.length_cons]
    omega

theorem withCum_filter_count (lo hi : Nat) (A : List TestGroup) (c : Nat)
    (hsing : ∀ g ∈ A, g.tests.length = 1) :
    ((withCum c A).filter (inRangeB lo hi)).length = min hi (c + A.length) - max lo c := by
  induction A generalizing c with
  | nil =>
    simp [withCum]
  | cons g A ih =>
    have hg : g.tests.length = 1 := hsing g (List.mem_cons_self _ _)
    have ihg := ih (c + g.tests.length) (fun g' hg' => hsing g' (List.mem_cons_of_mem _ hg'))
    rw [withCum, List.filter_cons]
    by_cases hr : lo ≤ c ∧ c < hi
    · have hin : inRangeB lo hi (g, c) = true := by simp [inRangeB]; omega
      rw [hin, if_pos rfl, List.length_cons, ihg, hg]
      simp only [List.length_cons]
      omega
    · have hin : inRangeB lo hi (g, c) = false := by
        simp only [inRangeB, decide_eq_false_iff_not]
        omega
      rw [hin]
      simp only [Bool.false_eq_true, if_false]
      rw [ihg, hg]
      simp only [List.length_cons]
      omega

/-- C4 (amended): fix a root suite and stages whose shardable groups are
all non-empty, jointly hold exactly shardableTotal tests with no test
repeated; then running the shard filter for every current = 1..total
partitions the shardable tests: shards are pairwise disjoint and their
union is the full shardable test set.  The per-shard count formula
shardSize + (1 if k < extraOne else 0) additionally requires every
shardable group to hold exactly one test (a group is retained whole by
the offset of its first test, so a larger group makes the counts of the
claim fail; see the counterexample). -/
theorem c4_shard_partition (root : Suite) (stages : List (List TestGroup)) (total : Nat)
    (h0 : 0 < total)
    (hne : ∀ g ∈ (stages.flatMap id).filter isShardableB, g.tests ≠ [])
    (hsum : sumLen ((stages.flatMap id).filter isShardableB) = shardableTotalOf root)
    (hnodup : (((stages.flatMap id).filter isShardableB).flatMap (fun g => g.tests)).Nodup) :
    (∀ i j, i < total → j < total → i ≠ j → ∀ t,
      t ∈ retainedShardableTests root stages (i + 1) total →
      t ∉ retainedShardableTests root stages (j + 1) total) ∧
    (∀ t, t ∈ ((stages.flatMap id).filter isShardableB).flatMap (fun g => g.tests) ↔
      ∃ k, k < total ∧ t ∈ retainedShardableTests root stages (k + 1) total) ∧
    ((∀ g ∈ (stages.flatMap id).filter isShardableB, g.tests.length = 1) →
      ∀ k, k < total → (retainedShardableTests root stages (k + 1) total).length =
        shardableTotalOf root / total +
          (if k < shardableTotalOf root - shardableTotalOf root / total * total
           then 1 else 0)) := by
  have hchar : ∀ k, retainedShardableTests root stages (k + 1) total =
      ((withCum 0 ((stages.flatMap id).filter isShardableB)).filter
        (inRangeB (shardLoOf (shardableTotalOf root) total k)
          (shardHiOf (shardableTotalOf root) total k))).flatMap (fun p => p.1.tests) := by
    intro k
    rw [retained_char]
    simp only [Nat.add_sub_cancel]
  have hmem : ∀ k t, t ∈ retainedShardableTests root stages (k + 1) total ↔
      ∃ p ∈ withCum 0 ((stages.flatMap id).filter isShardableB),
        (inRangeB (shardLoOf (shardableTotalOf root) total k)
          (shardHiOf (shardableTotalOf root) total k) p = true) ∧ t ∈ p.1.tests := by
    intro k t
    rw [hchar k]
    constructor
    · intro ht
      obtain ⟨p, hp, hpt⟩ := List.mem_flatMap.mp ht
      obtain ⟨hp1, hp2⟩ := List.mem_filter.mp hp
      exact ⟨p, hp1, hp2, hpt⟩
    · intro ⟨p, hp, hin, hpt⟩
      exact List.mem_flatMap.mpr ⟨p, List.mem_filter.mpr ⟨hp, hin⟩, hpt⟩
  refine ⟨?_, ?_, ?_⟩
  · have key : ∀ a b, a < b → b < total → ∀ t,
        t ∈ retainedShardableTests root stages (a + 1) total →
        t ∈ retainedShardableTests root stages (b + 1) total → False := by
      intro a b hab hb t hta htb
      obtain ⟨p, hp, hinA, hpt⟩ := (hmem a t).mp hta
      obtain ⟨p', hp', hinB, hpt'⟩ := (hmem b t).mp htb
      have hpp : p = p' := withCum_unique 0 _ hnodup p p' hp hp' t hpt hpt'
      subst hpp
      simp only [inRangeB, decide_eq_true_eq] at hinA hinB
      have hle := shardHi_le_lo (shardableTotalOf root) total a b hab
      omega
    intro i j hi hj hij t hti htj
    rcases Nat.lt_or_ge i j with hlt | hge
    · exact key i j hlt hj t hti htj
    · have hlt : j < i := by omega
      exact key j i hlt hi t htj hti
  · intro t
    constructor
    · intro ht
      obtain ⟨p, hp, hpt⟩ :=
        withCum_exists 0 ((stages.flatMap id).filter isShardableB) t ht
      obtain ⟨hpA, hc, hbound⟩ := withCum_mem _ _ _ hp
      have hlen : 1 ≤ p.1.tests.length := by
        have := hne p.1 hpA
        cases hl : p.1.tests with
        | nil => exact absurd hl this
        | cons x xs => simp [hl]
      have hoff : p.2 < shardableTotalOf root := by
        rw [hsum] at hbound
        omega
      have hcov := shard_coverage (shardableTotalOf root) total total p.2
        (by rw [shardLo_total _ _ h0]; exact hoff)
      obtain ⟨k, hk, hlo, hhi⟩ := hcov
      refine ⟨k, hk, (hmem k t).mpr ⟨p, hp, ?_, hpt⟩⟩
      simp only [inRangeB, decide_eq_true_eq]
      exact ⟨hlo, hhi⟩
    · intro ⟨k, hk, ht⟩
      obtain ⟨p, hp, hin, hpt⟩ := (hmem k t).mp ht
      obtain ⟨hpA, _, _⟩ := withCum_mem _ _ _ hp
      exact List.mem_flatMap.mpr ⟨p.1, hpA, hpt⟩
  · intro hsing k hk
    rw [hchar k]
    have hfil : ∀ p ∈ (withCum 0 ((stages.flatMap id).filter isShardableB)).filter
        (inRangeB (shardLoOf (shardableTotalOf root) total k)
          (shardHiOf (shardableTotalOf root) total k)), p.1.tests.length = 1 := by
      intro p hp
      obtain ⟨hp1, _⟩ := List.mem_filter.mp hp
      obtain ⟨hpA, _, _⟩ := withCum_mem _ _ _ hp1
      exact hsing p.1 hpA
    rw [flatMap_tests_length _ hfil, withCum_filter_count _ _ _ _ hsing]
    have hlenA : ((stages.flatMap id).filter isShardableB).length = shardableTotalOf root := by
      rw [← sumLen_singletons _ hsing, hsum]
    rw [hlenA]
    have hhiS : shardHiOf (shardableTotalOf root) total k ≤ shardableTotalOf root := by
      rw [shardHi_eq_lo_succ]
      calc shardLoOf (shardableTotalOf root) total (k + 1) ≤
          shardLoOf (shardableTotalOf root) total total :=
            shardLo_mono _ _ _ _ (by omega)
        _ = shardableTotalOf root := shardLo_total _ _ h0
    by_cases hke : k < shardableTotalOf root - shardableTotalOf root / total * total
    · have hhiv : shardHiOf (shardableTotalOf root) total k =
          shardLoOf (shardableTotalOf root) total k + shardableTotalOf root / total + 1 := by
        unfold shardHiOf
        rw [if_pos hke]
      have hle : shardLoOf (shardableTotalOf root) total k +
          shardableTotalOf root / total + 1 ≤ shardableTotalOf root := by
        rw [← hhiv]
        exact hhiS
      rw [if_pos hke, hhiv, Nat.zero_add, Nat.max_zero,
        Nat.min_eq_left hle, Nat.add_assoc, Nat.add_sub_cancel_left]
    · have hhiv : shardHiOf (shardableTotalOf root) total k =
          shardLoOf (shardableTotalOf root) total k + shardableTotalOf root / total := by
        unfold shardHiOf
        rw [if_neg hke]
        omega
      have hle : shardLoOf (shardableTotalOf root) total k +
          shardableTotalOf root / total ≤ shardableTotalOf root := by
        rw [← hhiv]
        exact hhiS
      rw [if_neg hke, hhiv, Nat.zero_add, Nat.max_zero,
        Nat.min_eq_left hle, Nat.add_sub_cancel_left, Nat.add_zero]

/-- A root suite with one default-run project suite holding two tests. -/
def c4xRoot : Suite :=
  Suite.mk { id := 0, parallelMode := PMode.pmDefault, hooks := [], project := none }
    [SuiteEntry.suiteEntry
      (Suite.mk { id := 10, parallelMode := PMode.pmDefault, hooks := [],
                  project := some { run := RunMode.runDefault } }
        [SuiteEntry.testEntry
           { id := 1, workerHash := "h", requireFile := "f", repeatEachIndex := 0,
             projectId := "p", projectRun := RunMode.runDefault },
         SuiteEntry.testEntry
           { id := 2, workerHash := "h", requireFile := "f", repeatEachIndex := 0,
             projectId := "p", projectRun := RunMode.runDefault }])]

/-- One stage holding one shardable group with both tests. -/
def c4xStages : List (List TestGroup) :=
  [[{ workerHash := "h", requireFile := "f", repeatEachIndex := 0, projectId := "p",
      run := RunMode.runDefault,
      tests :=
        [{ id := 1, workerHash := "h", requireFile := "f", repeatEachIndex := 0,
           projectId := "p", projectRun := RunMode.runDefault },
         { id := 2, workerHash := "h", requireFile := "f", repeatEachIndex := 0,
           projectId := "p", projectRun := RunMode.runDefault }],
      watchMode := false }]]

/-- C4 counterexample: a group is retained whole by the offset of its
first test, so with one 2-test group split over 2 shards the second
shard retains 0 non-always tests while the claimed count
shardSize + (1 if k < extraOne else 0) is 1. -/
theorem c4_shard_partition_counterexample :
    (retainedShardableTests c4xRoot c4xStages 2 2).length = 0 ∧
    shardableTotalOf c4xRoot / 2 +
      (if 1 < shardableTotalOf c4xRoot - shardableTotalOf c4xRoot / 2 * 2
       then 1 else 0) = 1 := by
  constructor
  · rfl
  · rfl

/-- Witness input for C4: the same two tests grouped as two singleton
groups in two stages. -/
def c4wStages : List (List TestGroup) :=
  [[{ workerHash := "h", requireFile := "f", repeatEachIndex := 0, projectId := "p",
      run := RunMode.runDefault,
      tests :=
        [{ id := 1, workerHash := "h", requireFile := "f", repeatEachIndex := 0,
           projectId := "p", projectRun := RunMode.runDefault }],
      watchMode := false }],
   [{ workerHash := "h", requireFile := "f", repeatEachIndex := 0, projectId := "p",
      run := RunMode.runDefault,
      tests :=
        [{ id := 2, workerHash := "h", requireFile := "f", repeatEachIndex := 0,
           projectId := "p", projectRun := RunMode.runDefault }],
      watchMode := false }]]

theorem c4_shard_partition_witness :
    (0 < 2 ∧
      (∀ g ∈ (c4wStages.flatMap id).filter isShardableB, g.tests ≠ []) ∧
      sumLen ((c4wStages.flatMap id).filter isShardableB) = shardableTotalOf c4xRoot ∧
      (((c4wStages.flatMap id).filter isShardableB).flatMap (fun g => g.tests)).Nodup) ∧
    ((∀ i j, i < 2 → j < 2 → i ≠ j → ∀ t,
        t ∈ retainedShardableTests c4xRoot c4wStages (i + 1) 2 →
        t ∉ retainedShardableTests c4xRoot c4wStages (j + 1) 2) ∧
      (∀ t, t ∈ ((c4wStages.flatMap id).filter isShardableB).flatMap (fun g => g.tests) ↔
        ∃ k, k < 2 ∧ t ∈ retainedShardableTests c4xRoot c4wStages (k + 1) 2) ∧
      ((∀ g ∈ (c4wStages.flatMap id).filter isShardableB, g.tests.length = 1) →
        ∀ k, k < 2 → (retainedShardableTests c4xRoot c4wStages (k + 1) 2).length =
          shardableTotalOf c4xRoot / 2 +
            (if k < shardableTotalOf c4xRoot - shardableTotalOf c4xRoot / 2 * 2
             then 1 else 0))) :=
  ⟨⟨by decide, by decide, by decide, by decide⟩,
    c4_shard_partition c4xRoot c4wStages 2 (by decide) (by decide) (by decide) (by decide)⟩

theorem shardGroupsInStage_all (hi : Nat) (gs : List TestGroup) (c : Nat)
    (hbound : c + shardableCount gs ≤ hi)
    (hne : ∀ g ∈ gs, isShardableB g = true → g.tests ≠ []) :
    shardGroupsInStage 0 hi gs c = (gs, c + shardableCount gs) := by
  induction gs generalizing c with
  | nil => simp [shardGroupsInStage, shardableCount]
  | cons g gs ih =>
    by_cases hrun : g.run = RunMode.always
    · have hcount : shardableCount (g :: gs) = shardableCount gs := by
        simp [shardableCount, List.filter_cons, hrun]
      rw [hcount] at hbound ⊢
      rw [shardGroupsInStage, if_pos hrun,
        ih c hbound (fun g' hg' => hne g' (List.mem_cons_of_mem _ hg'))]
    · have hsh : isShardableB g = true := by simp [isShardableB, hrun]
      have hlen : 1 ≤ g.tests.length := by
        have := hne g (List.mem_cons_self _ _) hsh
        cases hl : g.tests with
        | nil => exact absurd hl this
        | cons x xs => simp [hl]
      have hcount : shardableCount (g :: gs) = g.tests.length + shardableCount gs := by
        simp [shardableCount, List.filter_cons, hrun]
      rw [hcount] at hbound ⊢
      rw [shardGroupsInStage, if_neg hrun,
        ih (c + g.tests.length) (by omega) (fun g' hg' => hne g' (List.mem_cons_of_mem _ hg')),
        if_pos ⟨Nat.zero_le c, by omega⟩]
      rw [Prod.mk.injEq]
      exact ⟨by simp, by omega⟩

theorem shardWalk_all (hi : Nat) (stages : List (List TestGroup)) (c : Nat)
    (hbound : c + (stages.map shardableCount).sum ≤ hi)
    (hne : ∀ g ∈ stages.flatMap id, isShardableB g = true → g.tests ≠ [])
    (hstage : ∀ st ∈ stages, st ≠ []) :
    shardWalk 0 hi stages c = (stages, c + (stages.map shardableCount).sum) := by
  induction stages generalizing c with
  | nil => simp [shardWalk]
  | cons st sts ih =>
    have hsum : (List.map shardableCount (st :: sts)).sum =
        shardableCount st + (List.map shardableCount sts).sum := by
      simp
    rw [hsum] at hbound
    have hneSt : ∀ g ∈ st, isShardableB g = true → g.tests ≠ [] := by
      intro g hg
      exact hne g (by rw [List.flatMap_cons]; exact List.mem_append.mpr (Or.inl hg))
    have hneRest : ∀ g ∈ sts.flatMap id, isShardableB g = true → g.tests ≠ [] := by
      intro g hg
      exact hne g (by rw [List.flatMap_cons]; exact List.mem_append.mpr (Or.inr hg))
    rw [shardWalk, shardGroupsInStage_all hi st c (by omega) hneSt]
    simp only
    rw [ih (c + shardableCount st) (by omega) hneRest
      (fun st' hst' => hstage st' (List.mem_cons_of_mem _ hst'))]
    have hstE : st.isEmpty = false := by
      cases hst : st with
      | nil => exact absurd hst (hstage st (List.mem_cons_self _ _))
      | cons x xs => simp [hst]
    rw [hstE]
    rw [Prod.mk.injEq]
    refine ⟨by simp, by rw [hsum]; omega⟩

mutual
/-- All suite nodes of a tree, the root first. -/
def allSuites : Suite → List Suite
  | .mk a es => .mk a es :: allSuitesEntries es

def allSuitesEntries : List SuiteEntry → List Suite
  | [] => []
  | .testEntry _ :: es => allSuitesEntries es
  | .suiteEntry s :: es => allSuites s ++ allSuitesEntries es
end

mutual
theorem filterOnly_id_suite (sf : Suite → Bool) (tf : TestCase → Bool) :
    ∀ (s : Suite), (∀ s' ∈ allSuites s, entriesTests s'.entries ≠ []) →
      (∀ t ∈ s.allTests, tf t = true) →
      filterSuiteWithOnlySemantics sf tf s = (s, true)
  | .mk a es, hs, ht => by
    have hes : filterOnlyEntries sf tf es = es :=
      filterOnly_id_entries sf tf es
        (fun s' hs' => hs s' (by rw [allSuites]; exact List.mem_cons_of_mem _ hs'))
        (fun t ht' => ht t (by rw [Suite.allTests]; exact ht'))
    have hne : entriesTests es ≠ [] := by
      have := hs (.mk a es) (by rw [allSuites]; exact List.mem_cons_self _ _)
      simpa [Suite.entries] using this
    have hesne : es ≠ [] := by
      intro hcontra
      subst hcontra
      simp [entriesTests] at hne
    rw [filterSuiteWithOnlySemantics, hes]
    have : es.isEmpty = false := by
      cases hl : es with
      | nil => exact absurd hl hesne
      | cons x xs => simp [hl]
    rw [this]
    simp

theorem filterOnly_id_entries (sf : Suite → Bool) (tf : TestCase → Bool) :
    ∀ (es : List SuiteEntry), (∀ s' ∈ allSuitesEntries es, entriesTests s'.entries ≠ []) →
      (∀ t ∈ entriesTests es, tf t = true) →
      filterOnlyEntries sf tf es = es
  | [], _, _ => rfl
  | .testEntry t :: es, hs, ht => by
    have htf : tf t = true := ht t (by rw [entriesTests]; exact List.mem_cons_self _ _)
    rw [filterOnlyEntries, htf,
      filterOnly_id_entries sf tf es
        (fun s' hs' => hs s' (by rw [allSuitesEntries]; exact hs'))
        (fun t' ht' => ht t' (by rw [entriesTests]; exact List.mem_cons_of_mem _ ht'))]
    simp
  | .suiteEntry s :: es, hs, ht => by
    have hrec : filterSuiteWithOnlySemantics sf tf s = (s, true) :=
      filterOnly_id_suite sf tf s
        (fun s' hs' => hs s'
          (by rw [allSuitesEntries]; exact List.mem_append.mpr (Or.inl hs')))
        (fun t' ht' => ht t'
          (by rw [entriesTests]; exact List.mem_append.mpr (Or.inl ht')))
    rw [filterOnlyEntries, hrec,
      filterOnly_id_entries sf tf es
        (fun s' hs' => hs s'
          (by rw [allSuitesEntries]; exact List.mem_append.mpr (Or.inr hs')))
        (fun t' ht' => ht t'
          (by rw [entriesTests]; exact List.mem_append.mpr (Or.inr ht')))]
    simp
end

/-- C8 (amended): applying the shard filter with current = 1, total = 1
is the identity, provided the inputs are consistent: no stage is empty,
every shardable group is non-empty, the stages hold at most
shardableTotal shardable tests, every suite of the tree contains a test,
and every test of the tree occurs in some group.  (For arbitrary inputs
the claim fails, see the counterexample: a group not accounted for by
shardableTotal is dropped.) -/
theorem c8_shard_one_identity (root : Suite) (stages : List (List TestGroup))
    (hstage : ∀ st ∈ stages, st ≠ [])
    (hne : ∀ g ∈ stages.flatMap id, isShardableB g = true → g.tests ≠ [])
    (hbound : (stages.map shardableCount).sum ≤ shardableTotalOf root)
    (hsuites : ∀ s' ∈ allSuites root, entriesTests s'.entries ≠ [])
    (htests : ∀ t ∈ root.allTests,
      t.id ∈ (stages.flatMap id).flatMap (fun g => g.tests.map (fun x => x.id))) :
    filterForCurrentShard (some ⟨1, 1⟩) root stages = (root, stages) := by
  have hwalk : shardWalk (shardLoOf (shardableTotalOf root) 1 0)
      (shardHiOf (shardableTotalOf root) 1 0) stages 0 =
      (stages, 0 + (stages.map shardableCount).sum) := by
    have hlo : shardLoOf (shardableTotalOf root) 1 0 = 0 := by simp [shardLoOf]
    have hhi : shardHiOf (shardableTotalOf root) 1 0 = shardableTotalOf root := by
      simp [shardHiOf, shardLoOf]
    rw [hlo, hhi]
    exact shardWalk_all _ stages 0 (by omega) hne hstage
  have hexp : filterForCurrentShard (some ⟨1, 1⟩) root stages =
      ((filterSuiteWithOnlySemantics (fun _ => false)
          (fun t => t.id ∈ ((shardWalk (shardLoOf (shardableTotalOf root) 1 0)
            (shardHiOf (shardableTotalOf root) 1 0) stages 0).1.flatMap id).flatMap
              (fun g => g.tests.map (fun x => x.id))) root).1,
        (shardWalk (shardLoOf (shardableTotalOf root) 1 0)
          (shardHiOf (shardableTotalOf root) 1 0) stages 0).1) := rfl
  have hprune := filterOnly_id_suite (fun _ => false)
    (fun t => t.id ∈ (stages.flatMap id).flatMap (fun g => g.tests.map (fun x => x.id))) root
    hsuites (fun t ht => by simpa using htests t ht)
  rw [hexp, hwalk]
  simp only
  rw [hprune]

/-- A root with no tests (shardableTotal 0) but a non-empty stage. -/
def c8xRoot : Suite :=
  Suite.mk { id := 0, parallelMode := PMode.pmDefault, hooks := [], project := none } []

def c8xStages : List (List TestGroup) :=
  [[{ workerHash := "h", requireFile := "f", repeatEachIndex := 0, projectId := "p",
      run := RunMode.runDefault,
      tests :=
        [{ id := 1, workerHash := "h", requireFile := "f", repeatEachIndex := 0,
           projectId := "p", projectRun := RunMode.runDefault }],
      watchMode := false }]]

/-- C8 counterexample: over arbitrary inputs the {1,1} shard filter is
not the identity — with shardableTotal 0 the window [from, to) is empty,
the only group is dropped and its stage vanishes. -/
theorem c8_shard_one_identity_counterexample :
    (filterForCurrentShard (some ⟨1, 1⟩) c8xRoot c8xStages).2 ≠ c8xStages := by
  decide

theorem c8_shard_one_identity_witness :
    ((∀ st ∈ c4wStages, st ≠ []) ∧
      (∀ g ∈ c4wStages.flatMap id, isShardableB g = true → g.tests ≠ []) ∧
      (c4wStages.map shardableCount).sum ≤ shardableTotalOf c4xRoot ∧
      (∀ s' ∈ allSuites c4xRoot, entriesTests s'.entries ≠ []) ∧
      (∀ t ∈ c4xRoot.allTests,
        t.id ∈ (c4wStages.flatMap id).flatMap (fun g => g.tests.map (fun x => x.id)))) ∧
    filterForCurrentShard (some ⟨1, 1⟩) c4xRoot c4wStages = (c4xRoot, c4wStages) :=
  ⟨⟨by decide, by decide, by decide, by decide, by decide⟩,
    c8_shard_one_identity c4xRoot c4wStages (by decide) (by decide) (by decide)
      (by decide) (by decide)⟩

/-- The identity of one entry (test or suite object), used to compare
entry sequences across filtering. -/
def entryKey : SuiteEntry → GroupKey
  | .testEntry t => GroupKey.testKey t.id
  | .suiteEntry s => GroupKey.suiteKey s.attrs.id

def entryKeys (s : Suite) : List GroupKey :=
  s.entries.map entryKey

theorem filterSuite_attrs (sf : Suite → Bool) (tf : TestCase → Bool) (s : Suite) :
    (filterSuite sf tf s).attrs = s.attrs := by
  cases s with
  | mk a es => rfl

theorem filterOnly_attrs (sf : Suite → Bool) (tf : TestCase → Bool) (s : Suite) :
    (filterSuiteWithOnlySemantics sf tf s).1.attrs = s.attrs := by
  cases s with
  | mk a es =>
    rw [filterSuiteWithOnlySemantics]
    by_cases h : (filterOnlyEntries sf tf es).isEmpty = true
    · rw [if_pos h]
    · rw [if_neg h]
      rfl

theorem filterEntries_keys (sf : Suite → Bool) (tf : TestCase → Bool) :
    ∀ (es : List SuiteEntry),
      ((filterEntries sf tf es).map entryKey).Sublist (es.map entryKey)
  | [] => by simp [filterEntries]
  | .testEntry t :: es => by
    rw [filterEntries]
    by_cases h : tf t = true
    · rw [if_pos h]
      simpa [entryKey] using (filterEntries_keys sf tf es).cons₂ (GroupKey.testKey t.id)
    · rw [if_neg h]
      simpa using (filterEntries_keys sf tf es).cons (entryKey (.testEntry t))
  | .suiteEntry s :: es => by
    rw [filterEntries]
    have hkey : entryKey (.suiteEntry (if sf s then s else filterSuite sf tf s)) =
        entryKey (.suiteEntry s) := by
      by_cases h : sf s = true
      · rw [if_pos h]
      · rw [if_neg h]
        simp [entryKey, filterSuite_attrs]
    simp only [List.map_cons, hkey]
    exact (filterEntries_keys sf tf es).cons₂ _

theorem filterOnlyEntries_keys (sf : Suite → Bool) (tf : TestCase → Bool) :
    ∀ (es : List SuiteEntry),
      ((filterOnlyEntries sf tf es).map entryKey).Sublist (es.map entryKey)
  | [] => by simp [filterOnlyEntries]
  | .testEntry t :: es => by
    rw [filterOnlyEntries]
    by_cases h : tf t = true
    · rw [if_pos h]
      simpa [entryKey] using (filterOnlyEntries_keys sf tf es).cons₂ (GroupKey.testKey t.id)
    · rw [if_neg h]
      simpa using (filterOnlyEntries_keys sf tf es).cons (entryKey (.testEntry t))
  | .suiteEntry s :: es => by
    rw [filterOnlyEntries]
    by_cases h : ((filterSuiteWithOnlySemantics sf tf s).2 ||
        sf (filterSuiteWithOnlySemantics sf tf s).1) = true
    · rw [if_pos h]
      have hkey : entryKey (.suiteEntry (filterSuiteWithOnlySemantics sf tf s).1) =
          entryKey (.suiteEntry s) := by
        simp [entryKey, filterOnly_attrs]
      simp only [List.cons_append, List.nil_append, List.map_cons, hkey]
      exact (filterOnlyEntries_keys sf tf es).cons₂ _
    · rw [if_neg h]
      simpa using (filterOnlyEntries_keys sf tf es).cons (entryKey (.suiteEntry s))

mutual
theorem filterSuite_sub (sf : Suite → Bool) (tf : TestCase → Bool) :
    ∀ (s : Suite), ∀ s' ∈ allSuites (filterSuite sf tf s),
      ∃ s0 ∈ allSuites s, s'.attrs = s0.attrs ∧ (entryKeys s').Sublist (entryKeys s0)
  | .mk a es, s', hs' => by
    rw [filterSuite, allSuites] at hs'
    rcases List.mem_cons.mp hs' with rfl | hs'
    · refine ⟨.mk a es, by rw [allSuites]; exact List.mem_cons_self _ _, rfl, ?_⟩
      exact filterEntries_keys sf tf es
    · obtain ⟨s0, h0, ha, hk⟩ := filterEntries_sub sf tf es s' hs'
      exact ⟨s0, by rw [allSuites]; exact List.mem_cons_of_mem _ h0, ha, hk⟩

theorem filterEntries_sub (sf : Suite → Bool) (tf : TestCase → Bool) :
    ∀ (es : List SuiteEntry), ∀ s' ∈ allSuitesEntries (filterEntries sf tf es),
      ∃ s0 ∈ allSuitesEntries es, s'.attrs = s0.attrs ∧ (entryKeys s').Sublist (entryKeys s0)
  | [], s', hs' => by
    rw [filterEntries] at hs'
    simp [allSuitesEntries] at hs'
  | .testEntry t :: es, s', hs' => by
    rw [filterEntries] at hs'
    have hs2 : s' ∈ allSuitesEntries (filterEntries sf tf es) := by
      by_cases h : tf t = true
      · rw [if_pos h] at hs'
        simpa [allSuitesEntries] using hs'
      · rw [if_neg h] at hs'
        simpa [allSuitesEntries] using hs'
    obtain ⟨s0, h0, ha, hk⟩ := filterEntries_sub sf tf es s' hs2
    exact ⟨s0, by rw [allSuitesEntries]; exact h0, ha, hk⟩
  | .suiteEntry s :: es, s', hs' => by
    rw [filterEntries, allSuitesEntries] at hs'
    rcases List.mem_append.mp hs' with hs2 | hs2
    · by_cases h : sf s = true
      · rw [if_pos h] at hs2
        exact ⟨s', by rw [allSuitesEntries]; exact List.mem_append.mpr (Or.inl hs2), rfl,
          List.Sublist.refl _⟩
      · rw [if_neg h] at hs2
        obtain ⟨s0, h0, ha, hk⟩ := filterSuite_sub sf tf s s' hs2
        exact ⟨s0, by rw [allSuitesEntries]; exact List.mem_append.mpr (Or.inl h0), ha, hk⟩
    · obtain ⟨s0, h0, ha, hk⟩ := filterEntries_sub sf tf es s' hs2
      exact ⟨s0, by rw [allSuitesEntries]; exact List.mem_append.mpr (Or.inr h0), ha, hk⟩
end

mutual
theorem filterOnly_sub (sf : Suite → Bool) (tf : TestCase → Bool) :
    ∀ (s : Suite), ∀ s' ∈ allSuites (filterSuiteWithOnlySemantics sf tf s).1,
      ∃ s0 ∈ allSuites s, s'.attrs = s0.attrs ∧ (entryKeys s').Sublist (entryKeys s0)
  | .mk a es, s', hs' => by
    rw [filterSuiteWithOnlySemantics] at hs'
    by_cases h : (filterOnlyEntries sf tf es).isEmpty = true
    · rw [if_pos h] at hs'
      exact ⟨s', hs', rfl, List.Sublist.refl _⟩
    · rw [if_neg h] at hs'
      rw [allSuites] at hs'
      rcases List.mem_cons.mp hs' with rfl | hs'
      · refine ⟨.mk a es, by rw [allSuites]; exact List.mem_cons_self _ _, rfl, ?_⟩
        exact filterOnlyEntries_keys sf tf es
      · obtain ⟨s0, h0, ha, hk⟩ := filterOnlyEntries_sub sf tf es s' hs'
        exact ⟨s0, by rw [allSuites]; exact List.mem_cons_of_mem _ h0, ha, hk⟩

theorem filterOnlyEntries_sub (sf : Suite → Bool) (tf : TestCase → Bool) :
    ∀ (es : List SuiteEntry), ∀ s' ∈ allSuitesEntries (filterOnlyEntries sf tf es),
      ∃ s0 ∈ allSuitesEntries es, s'.attrs = s0.attrs ∧ (entryKeys s').Sublist (entryKeys s0)
  | [], s', hs' => by
    rw [filterOnlyEntries] at hs'
    simp [allSuitesEntries] at hs'
  | .testEntry t :: es, s', hs' => by
    rw [filterOnlyEntries] at hs'
    have hs2 : s' ∈ allSuitesEntries (filterOnlyEntries sf tf es) := by
      by_cases h : tf t = true
      · rw [if_pos h] at hs'
        simpa [allSuitesEntries] using hs'
      · rw [if_neg h] at hs'
        simpa [allSuitesEntries] using hs'
    obtain ⟨s0, h0, ha, hk⟩ := filterOnlyEntries_sub sf tf es s' hs2
    exact ⟨s0, by rw [allSuitesEntries]; exact h0, ha, hk⟩
  | .suiteEntry s :: es, s', hs' => by
    rw [filterOnlyEntries] at hs'
    by_cases h : ((filterSuiteWithOnlySemantics sf tf s).2 ||
        sf (filterSuiteWithOnlySemantics sf tf s).1) = true
    · rw [if_pos h] at hs'
      rw [List.cons_append, List.nil_append, allSuitesEntries] at hs'
      rcases List.mem_append.mp hs' with hs2 | hs2
      · obtain ⟨s0, h0, ha, hk⟩ := filterOnly_sub sf tf s s' hs2
        exact ⟨s0, by rw [allSuitesEntries]; exact List.mem_append.mpr (Or.inl h0), ha, hk⟩
      · obtain ⟨s0, h0, ha, hk⟩ := filterOnlyEntries_sub sf tf es s' hs2
        exact ⟨s0, by rw [allSuitesEntries]; exact List.mem_append.mpr (Or.inr h0), ha, hk⟩
    · rw [if_neg h, List.nil_append] at hs'
      obtain ⟨s0, h0, ha, hk⟩ := filterOnlyEntries_sub sf tf es s' hs'
      exact ⟨s0, by rw [allSuitesEntries]; exact List.mem_append.mpr (Or.inr h0), ha, hk⟩
end

/-- C9: both suite filtering operations preserve entry order — every
suite retained after plain filtering (filterSuite) or only-semantics
filtering (filterSuiteWithOnlySemantics) corresponds to a pre-filter
suite (same attributes) whose entries sequence contains the post-filter
entries sequence as a subsequence (compared by entry identity). -/
theorem c9_filters_preserve_entry_order (sf : Suite → Bool) (tf : TestCase → Bool)
    (root : Suite) :
    (∀ s' ∈ allSuites (filterSuite sf tf root),
      ∃ s0 ∈ allSuites root, s'.attrs = s0.attrs ∧ (entryKeys s').Sublist (entryKeys s0)) ∧
    (∀ s' ∈ allSuites (filterSuiteWithOnlySemantics sf tf root).1,
      ∃ s0 ∈ allSuites root, s'.attrs = s0.attrs ∧ (entryKeys s').Sublist (entryKeys s0)) :=
  ⟨filterSuite_sub sf tf root, filterOnly_sub sf tf root⟩

def c9wRoot : Suite :=
  Suite.mk { id := 0, parallelMode := PMode.pmDefault, hooks := [], project := none }
    [SuiteEntry.testEntry
       { id := 1, workerHash := "h", requireFile := "f", repeatEachIndex := 0,
         projectId := "p", projectRun := RunMode.runDefault },
     SuiteEntry.testEntry
       { id := 2, workerHash := "h", requireFile := "f", repeatEachIndex := 0,
         projectId := "p", projectRun := RunMode.runDefault }]

def c9wSf : Suite → Bool := fun _ => false

def c9wTf : TestCase → Bool := fun t => decide (t.id = 1)

theorem c9_filters_preserve_entry_order_witness :
    filterSuite c9wSf c9wTf c9wRoot ∈ allSuites (filterSuite c9wSf c9wTf c9wRoot) ∧
    ∃ s0 ∈ allSuites c9wRoot, (filterSuite c9wSf c9wTf c9wRoot).attrs = s0.attrs ∧
      (entryKeys (filterSuite c9wSf c9wTf c9wRoot)).Sublist (entryKeys s0) :=
  ⟨List.mem_cons_self _ _,
    (c9_filters_preserve_entry_order c9wSf c9wTf c9wRoot).1 _ (List.mem_cons_self _ _)⟩

/-- FullResult statuses. -/
inductive RStatus where
  | passed
  | failed
  | timedout
  | interrupted
deriving DecidableEq

/-- Test result statuses produced by the modelled paths. -/
inductive TStatus where
  | skipped
deriving DecidableEq

/-- Reporter events emitted by the modelled paths: the synthetic
onTestBegin / onTestEnd pair of the skip path and onError reports. -/
inductive REvent where
  | testBegin (testId : Nat)
  | testEnd (testId : Nat) (status : TStatus)
  | errorEvent
deriving DecidableEq

/-- Runner._skipTestsNotMarkedAsRunAlways: keep groups with
run = 'always'; for every test of every other group append a synthetic
result, reported as onTestBegin then onTestEnd with status skipped. -/
def skipTestsNotMarkedAsRunAlways : List TestGroup → List TestGroup × List REvent
  | [] => ([], [])
  | g :: gs =>
    let r := skipTestsNotMarkedAsRunAlways gs
    if g.run = RunMode.always then (g :: r.1, r.2)
    else
      (r.1,
        g.tests.flatMap
          (fun t => [REvent.testBegin t.id, REvent.testEnd t.id TStatus.skipped]) ++ r.2)

/-- The external observations for one stage: the groups collected for
it, and what the (external) dispatcher and signal watcher would report
when the stage is dispatched. -/
structure StageInput where
  groups : List TestGroup
  workerErrors : Bool
  signal : Bool

/-- The observable outcome of the stage loop: the last created signal
watcher's state (none when no dispatcher ever ran), the final
hasWorkerErrors, and the synthetic skip events emitted. -/
structure LoopOut where
  lastSignal : Option Bool
  hasWorkerErrors : Bool
  events : List REvent

/-- The stage loop of Runner._run: when the previous stage failed the
stage's groups pass through the skip path; a stage with no groups left
is skipped without constructing a dispatcher; otherwise the dispatcher
runs — on worker errors or a signal the loop breaks, else
previousStageFailed accumulates whether any dispatched test is not
ok. -/
def runStagesLoop (ok : Nat → Bool) :
    List StageInput → Bool → Bool → Option Bool → LoopOut
  | [], _, hwe, sig => ⟨sig, hwe, []⟩
  | s :: rest, prevFailed, hwe, sig =>
    let gr := if prevFailed then skipTestsNotMarkedAsRunAlways s.groups else (s.groups, [])
    if gr.1.isEmpty then
      let r := runStagesLoop ok rest prevFailed hwe sig
      ⟨r.lastSignal, r.hasWorkerErrors, gr.2 ++ r.events⟩
    else
      if s.workerErrors then ⟨some s.signal, true, gr.2⟩
      else if s.signal then ⟨some true, s.workerErrors, gr.2⟩
      else
        let failed := prevFailed || gr.1.any (fun g => g.tests.any (fun t => !(ok t.id)))
        let r := runStagesLoop ok rest failed s.workerErrors (some s.signal)
        ⟨r.lastSignal, r.hasWorkerErrors, gr.2 ++ r.events⟩

/-- Runner.runAllTests around Runner._run: the timeout race decides
timedout (reporting an error); otherwise interrupted on a signal, else
failed on worker errors or a not-ok test of the root suite, else
passed. -/
def runAllTestsModel (timedOut : Bool) (ok : Nat → Bool) (stages : List StageInput)
    (rootTests : List TestCase) : RStatus × List REvent :=
  if timedOut then (RStatus.timedout, [REvent.errorEvent])
  else
    let r := runStagesLoop ok stages false false none
    (if r.lastSignal = some true then RStatus.interrupted
     else if r.hasWorkerErrors || rootTests.any (fun t => !(ok t.id)) then RStatus.failed
     else RStatus.passed, r.events)

/-- Spec side for C6: the stages actually handed to a dispatcher, in
order; the loop stops after the first dispatched stage that reports
worker errors or a signal. -/
def dispatchedStages (ok : Nat → Bool) : List StageInput → Bool → List StageInput
  | [], _ => []
  | s :: rest, prevFailed =>
    let gs := if prevFailed then s.groups.filter (fun g => g.run = RunMode.always)
              else s.groups
    if gs.isEmpty then dispatchedStages ok rest prevFailed
    else if s.workerErrors || s.signal then [s]
    else s :: dispatchedStages ok rest
      (prevFailed || gs.any (fun g => g.tests.any (fun t => !(ok t.id))))

theorem skip_fst (gs : List TestGroup) :
    (skipTestsNotMarkedAsRunAlways gs).1 = gs.filter (fun g => g.run = RunMode.always) := by
  induction gs with
  | nil => rfl
  | cons g gs ih =>
    by_cases h : g.run = RunMode.always
    · simp [skipTestsNotMarkedAsRunAlways, List.filter_cons, h, ih]
    · simp [skipTestsNotMarkedAsRunAlways, List.filter_cons, h, ih]

theorem skip_snd (gs : List TestGroup) :
    (skipTestsNotMarkedAsRunAlways gs).2 =
      (gs.filter (fun g => ¬ g.run = RunMode.always)).flatMap
        (fun g => g.tests.flatMap
          (fun t => [REvent.testBegin t.id, REvent.testEnd t.id TStatus.skipped])) := by
  induction gs with
  | nil => rfl
  | cons g gs ih =>
    by_cases h : g.run = RunMode.always
    · simp [skipTestsNotMarkedAsRunAlways, List.filter_cons, h, ih]
    · simp [skipTestsNotMarkedAsRunAlways, List.filter_cons, h, ih]

theorem runStagesLoop_spec (ok : Nat → Bool) :
    ∀ (l : List StageInput) (pf : Bool) (sig : Option Bool),
      (runStagesLoop ok l pf false sig).hasWorkerErrors =
        (dispatchedStages ok l pf).any (fun s => s.workerErrors) ∧
      (runStagesLoop ok l pf false sig).lastSignal =
        (if (dispatchedStages ok l pf).isEmpty then sig
         else some ((dispatchedStages ok l pf).any (fun s => s.signal))) := by
  intro l
  induction l with
  | nil =>
    intro pf sig
    simp [runStagesLoop, dispatchedStages]
  | cons s rest ih =>
    intro pf sig
    have hfst : (if pf then skipTestsNotMarkedAsRunAlways s.groups else (s.groups, [])).1 =
        (if pf then s.groups.filter (fun g => g.run = RunMode.always) else s.groups) := by
      cases pf
      · rfl
      · simp [skip_fst]
    rw [runStagesLoop, dispatchedStages]
    simp only [hfst]
    by_cases hE : (if pf then s.groups.filter (fun g => g.run = RunMode.always)
        else s.groups).isEmpty = true
    · rw [if_pos hE, if_pos hE]
      obtain ⟨ih1, ih2⟩ := ih pf sig
      exact ⟨ih1, ih2⟩
    · rw [if_neg hE, if_neg hE]
      by_cases hW : s.workerErrors = true
      · have hor : (s.workerErrors || s.signal) = true := by simp [hW]
        rw [if_pos hW, if_pos hor]
        constructor
        · simp [hW]
        · simp
      · rw [if_neg hW]
        by_cases hS : s.signal = true
        · have hor : (s.workerErrors || s.signal) = true := by simp [hS]
          rw [if_pos hS, if_pos hor]
          constructor
          · simp [hW]
          · simp [hS]
        · have hor : (s.workerErrors || s.signal) = false := by
            simp [Bool.eq_false_iff.mpr hW, Bool.eq_false_iff.mpr hS]
          rw [if_neg hS, hor]
          simp only [Bool.false_eq_true, if_false]
          have hwf : s.workerErrors = false := Bool.eq_false_iff.mpr hW
          rw [hwf]
          obtain ⟨ih1, ih2⟩ := ih
            (pf || (if pf then s.groups.filter (fun g => g.run = RunMode.always)
              else s.groups).any (fun g => g.tests.any (fun t => !(ok t.id))))
            (some s.signal)
          refine ⟨?_, ?_⟩
          · rw [ih1, List.any_cons]
            simp [Bool.eq_false_iff.mpr hW]
          · rw [ih2, List.any_cons]
            have hsf : s.signal = false := Bool.eq_false_iff.mpr hS
            by_cases hDE : (dispatchedStages ok rest
                (pf || (if pf then s.groups.filter (fun g => g.run = RunMode.always)
                  else s.groups).any (fun g => g.tests.any (fun t => !(ok t.id))))).isEmpty = true
            · rw [if_pos hDE]
              have : dispatchedStages ok rest
                  (pf || (if pf then s.groups.filter (fun g => g.run = RunMode.always)
                    else s.groups).any (fun g => g.tests.any (fun t => !(ok t.id)))) = [] :=
                List.isEmpty_iff.mp hDE
              rw [this]
              simp [hsf]
            · rw [if_neg hDE]
              have hne : (s :: dispatchedStages ok rest
                  (pf || (if pf then s.groups.filter (fun g => g.run = RunMode.always)
                    else s.groups).any (fun g => g.tests.any (fun t => !(ok t.id))))).isEmpty
                  = false := rfl
              rw [hne]
              simp [hsf]

/-- C6: for a run that reaches the stage loop (collection passed, not
list mode), the final status is timedout when the globalTimeout race
fired (with an error reported), else interrupted when an interrupt
signal was received during a dispatched stage, else failed when the
dispatcher reported worker errors or some root-suite test is not ok,
else passed. -/
theorem c6_final_status (timedOut : Bool) (ok : Nat → Bool) (stages : List StageInput)
    (rootTests : List TestCase) :
    (runAllTestsModel timedOut ok stages rootTests).1 =
      (if timedOut then RStatus.timedout
       else if (dispatchedStages ok stages false).any (fun s => s.signal) then
         RStatus.interrupted
       else if (dispatchedStages ok stages false).any (fun s => s.workerErrors) ||
           rootTests.any (fun t => !(ok t.id)) then RStatus.failed
       else RStatus.passed) ∧
    (runAllTestsModel true ok stages rootTests).2 = [REvent.errorEvent] := by
  refine ⟨?_, rfl⟩
  cases timedOut
  · obtain ⟨hwe, hsig⟩ := runStagesLoop_spec ok stages false none
    simp only [runAllTestsModel, Bool.false_eq_true, if_false]
    rw [hwe, hsig]
    by_cases hE : (dispatchedStages ok stages false).isEmpty = true
    · have hnil : dispatchedStages ok stages false = [] := List.isEmpty_iff.mp hE
      rw [if_pos hE, hnil]
      simp
    · rw [if_neg hE]
      cases hS : (dispatchedStages ok stages false).any (fun s => s.signal)
      · simp
      · simp
  · simp [runAllTestsModel]

/-- C7: when the previous stage failed, the skip path keeps exactly the
run-always groups in their original order, emits for every test of each
other group an onTestBegin followed by an onTestEnd with status skipped
(in group and test order), and when no groups remain the stage is
skipped entirely — the loop proceeds to the remaining stages as if the
stage were absent, only its skip events being emitted. -/
theorem c7_skip_non_always (ok : Nat → Bool) (gs : List TestGroup) (s : StageInput)
    (rest : List StageInput) (sig : Option Bool) :
    (skipTestsNotMarkedAsRunAlways gs).1 = gs.filter (fun g => g.run = RunMode.always) ∧
    (skipTestsNotMarkedAsRunAlways gs).2 =
      (gs.filter (fun g => ¬ g.run = RunMode.always)).flatMap
        (fun g => g.tests.flatMap
          (fun t => [REvent.testBegin t.id, REvent.testEnd t.id TStatus.skipped])) ∧
    (s.groups.filter (fun g => g.run = RunMode.always) = [] →
      runStagesLoop ok (s :: rest) true false sig =
        ⟨(runStagesLoop ok rest true false sig).lastSignal,
         (runStagesLoop ok rest true false sig).hasWorkerErrors,
         (skipTestsNotMarkedAsRunAlways s.groups).2 ++
           (runStagesLoop ok rest true false sig).events⟩) := by
  refine ⟨skip_fst gs, skip_snd gs, ?_⟩
  intro hempty
  rw [runStagesLoop]
  have h1 : (if true = true then skipTestsNotMarkedAsRunAlways s.groups
      else (s.groups, [])).1 = [] := by
    rw [if_pos rfl, skip_fst, hempty]
  have hE : (if true = true then skipTestsNotMarkedAsRunAlways s.groups
      else (s.groups, [])).1.isEmpty = true := by
    rw [h1]
    rfl
  rw [if_pos hE]
  simp

def c7wOk : Nat → Bool := fun _ => true

def c7wStage : StageInput :=
  { groups :=
      [{ workerHash := "h", requireFile := "f", repeatEachIndex := 0, projectId := "p",
         run := RunMode.runDefault,
         tests :=
           [{ id := 1, workerHash := "h", requireFile := "f", repeatEachIndex := 0,
              projectId := "p", projectRun := RunMode.runDefault }],
         watchMode := false }],
    workerErrors := false,
    signal := false }

theorem c7_skip_non_always_witness :
    (c7wStage.groups.filter (fun g => g.run = RunMode.always) = []) ∧
    runStagesLoop c7wOk (c7wStage :: []) true false none =
      ⟨(runStagesLoop c7wOk [] true false none).lastSignal,
       (runStagesLoop c7wOk [] true false none).hasWorkerErrors,
       (skipTestsNotMarkedAsRunAlways c7wStage.groups).2 ++
         (runStagesLoop c7wOk [] true false none).events⟩ :=
  ⟨by decide,
    (c7_skip_non_always c7wOk c7wStage.groups c7wStage [] none).2.2 (by decide)⟩

mutual
/-- A filesystem node as the walker observes it through the external fs
module: a file with its contents, or a directory of named children. -/
inductive FsNode where
  | file (content : String)
  | dir (entries : FsDirList)
/-- Named directory children. -/
inductive FsDirList where
  | nil
  | cons (name : String) (node : FsNode) (rest : FsDirList)
end

def FsDirList.toList : FsDirList → List (String × FsNode)
  | .nil => []
  | .cons name node rest => (name, node) :: FsDirList.toList rest

mutual
def FsNode.size : FsNode → Nat
  | .file _ => 1
  | .dir entries => 1 + FsDirList.size entries

def FsDirList.size : FsDirList → Nat
  | .nil => 0
  | .cons _ node rest => FsNode.size node + FsDirList.size rest
end

def FsNode.isDirFlag : FsNode → Bool
  | .file _ => false
  | .dir _ => true

/-- A parsed gitignore rule (minimatch is an external bundle): the
defining directory, the negate flag, and the match function, whose
second argument is the partial-match flag. -/
structure IgnoreRule where
  dir : String
  negate : Bool
  matchFn : String → Bool → Bool

/-- The external operations collectFiles relies on: path.join,
path.relative, the name ordering of the entries sort (localeCompare),
and minimatch rule construction from one gitignore line (none for
comment lines). -/
structure FsOps where
  join : String → String → String
  rel : String → String → String
  nameLe : String → String → Bool
  mkRule : String → String → Option IgnoreRule

inductive IgnoreStatus where
  | ignored
  | included
  | ignoredButRecurse
deriving DecidableEq

/-- checkIgnores of collectFiles: rules apply in order, a rule is
consulted only when its polarity differs from the current status; the
path relative to the rule's directory is matched with and without a
leading slash, for directories also with a trailing slash, and a
directory a re-include rule prefix-matches becomes
ignored-but-recurse. -/
def checkIgnores (ops : FsOps) (entryPath : String) (rules : List IgnoreRule)
    (isDirectory : Bool) (parentStatus : IgnoreStatus) : IgnoreStatus :=
  rules.foldl
    (fun status rule =>
      let ruleIncludes := rule.negate
      if (status == IgnoreStatus.included) = ruleIncludes then status
      else
        let relative := ops.rel rule.dir entryPath
        if rule.matchFn ("/" ++ relative) false || rule.matchFn relative false then
          (if ruleIncludes then IgnoreStatus.included else IgnoreStatus.ignored)
        else if isDirectory &&
            (rule.matchFn ("/" ++ relative ++ "/") false ||
              rule.matchFn (relative ++ "/") false) then
          (if ruleIncludes then IgnoreStatus.included else IgnoreStatus.ignored)
        else if isDirectory && ruleIncludes &&
            (rule.matchFn ("/" ++ relative) true || rule.matchFn relative true) then
          IgnoreStatus.ignoredButRecurse
        else status)
    parentStatus

/-- Parse one .gitignore: split lines (String.trim also strips the
carriage return of the source's line split), drop blank lines, and
build a rule per remaining line (mkRule yields none for comments). -/
def parseGitignore (ops : FsOps) (dir content : String) : List IgnoreRule :=
  (content.splitOn "\n").filterMap (fun s0 =>
    let s := s0.trim
    if s = "" then none else ops.mkRule s dir)

/-- The visit loop of collectFiles: sort entries by name, extend the
rule list from a .gitignore when respecting it, then walk the entries,
never descending into node_modules, never emitting .gitignore, emitting
included files and recursing into not-ignored directories.  The fuel
argument bounds the recursion depth; collectFiles passes the tree size,
which the depth never exceeds. -/
def visit (ops : FsOps) (respectGitIgnore : Bool) :
    Nat → String → List (String × FsNode) → List IgnoreRule → IgnoreStatus → List String
  | 0, _, _, _, _ => []
  | fuel + 1, dir, dirEntries, rules0, status =>
    let entries := dirEntries.mergeSort (fun a b => ops.nameLe a.1 b.1)
    let rules :=
      if respectGitIgnore then
        match entries.find? (fun e => !e.2.isDirFlag && e.1 = ".gitignore") with
        | some e =>
            rules0 ++ (match e.2 with
              | .file content => parseGitignore ops dir content
              | .dir _ => [])
        | none => rules0
      else rules0
    entries.flatMap (fun e =>
      if e.1 = "." ∨ e.1 = ".." then []
      else if !e.2.isDirFlag ∧ e.1 = ".gitignore" then []
      else if e.2.isDirFlag ∧ e.1 = "node_modules" then []
      else
        let entryPath := ops.join dir e.1
        let entryStatus := checkIgnores ops entryPath rules e.2.isDirFlag status
        match e.2 with
        | .dir sub =>
            if entryStatus ≠ IgnoreStatus.ignored then
              visit ops respectGitIgnore fuel entryPath sub.toList rules entryStatus
            else []
        | .file _ => if entryStatus = IgnoreStatus.included then [entryPath] else [])

/-- collectFiles (runner.ts): a missing testDir or one that is not a
directory yields the empty list; otherwise walk the tree from an
included root with no inherited rules. -/
def collectFiles (ops : FsOps) (testDir : String) (node : Option FsNode)
    (respectGitIgnore : Bool) : List String :=
  match node with
  | none => []
  | some (.file _) => []
  | some (.dir entries) =>
      visit ops respectGitIgnore (FsNode.size (FsNode.dir entries)) testDir entries.toList []
        IgnoreStatus.included

/-- C10: for every testDir that does not exist (no node) or is not a
directory (a file node), and either value of respectGitIgnore, the
collector returns the empty file list rather than failing. -/
theorem c10_collect_files_missing_dir (ops : FsOps) (testDir : String)
    (node : Option FsNode) (respectGitIgnore : Bool)
    (h : node = none ∨ ∃ c, node = some (FsNode.file c)) :
    collectFiles ops testDir node respectGitIgnore = [] := by
  rcases h with rfl | ⟨c, rfl⟩ <;> rfl

def c10wOps : FsOps :=
  { join := fun a b => a ++ "/" ++ b
    rel := fun _ p => p
    nameLe := fun _ _ => true
    mkRule := fun _ _ => none }

theorem c10_collect_files_missing_dir_witness :
    ((none : Option FsNode) = none ∨ ∃ c, (none : Option FsNode) = some (FsNode.file c)) ∧
    collectFiles c10wOps "testdir" none true = [] :=
  ⟨Or.inl rfl,
    c10_collect_files_missing_dir c10wOps "testdir" none true (Or.inl rfl)⟩

/-- Five parallel-with-hooks tests of one bucket. -/
def c5wPwh : TestGroup :=
  { workerHash := "h", requireFile := "f", repeatEachIndex := 0, projectId := "p",
    run := RunMode.runDefault,
    tests :=
      [{ id := 1, workerHash := "h", requireFile := "f", repeatEachIndex := 0,
         projectId := "p", projectRun := RunMode.runDefault },
       { id := 2, workerHash := "h", requireFile := "f", repeatEachIndex := 0,
         projectId := "p", projectRun := RunMode.runDefault },
       { id := 3, workerHash := "h", requireFile := "f", repeatEachIndex := 0,
         projectId := "p", projectRun := RunMode.runDefault },
       { id := 4, workerHash := "h", requireFile := "f", repeatEachIndex := 0,
         projectId := "p", projectRun := RunMode.runDefault },
       { id := 5, workerHash := "h", requireFile := "f", repeatEachIndex := 0,
         projectId := "p", projectRun := RunMode.runDefault }],
    watchMode := false }

theorem c5_parallel_with_hooks_chunking_witness :
    1 ≤ 2 ∧
    ((emitParallelWithHooks 2 c5wPwh).flatMap (fun g => g.tests) = c5wPwh.tests ∧
      (∀ g ∈ (emitParallelWithHooks 2 c5wPwh).dropLast,
        g.tests.length = (c5wPwh.tests.length + 2 - 1) / 2) ∧
      (∀ g, (emitParallelWithHooks 2 c5wPwh).getLast? = some g →
        1 ≤ g.tests.length ∧ g.tests.length ≤ (c5wPwh.tests.length + 2 - 1) / 2)) ∧
    (emitParallelWithHooks 2 c5wPwh).map (fun g => g.tests.length) = [3, 2] :=
  ⟨by decide, c5_parallel_with_hooks_chunking 2 c5wPwh (by decide), by decide⟩
